import Mathlib

/-!
Verification of `src/inc/split.hxx` (splitting disconnected communities).

The graph capability is the read-only surface the code assumes: a span
(size of the vertex-id universe), a presence test, and per-vertex
neighbour enumeration (`forEachEdgeKey`, modelled as a neighbour list).
Vertex-indexed buffers are modelled as total functions out of `Nat`;
the OpenMP loops are modelled by their deterministic single-worker
schedule (one thread, ids processed in increasing order), which is one
of the executions the runtime may choose.
-/

structure Graph where
  span : Nat
  hasVertex : Nat → Bool
  nbrs : Nat → List Nat

/-- A vertex id is present when it lies in the universe and its slot is filled. -/
def Graph.Present (g : Graph) (u : Nat) : Prop :=
  u < g.span ∧ g.hasVertex u = true

instance (g : Graph) (u : Nat) : Decidable (g.Present u) := by
  unfold Graph.Present
  infer_instance

/-- Well-formed graph: edges join present vertices inside the span, symmetrically.
This is the shape the surrounding framework's graphs always have (removing a
vertex removes its incident edges); the splitters rely on it because they never
re-check presence of enumerated neighbours. -/
def Graph.Wf (g : Graph) : Prop :=
  ∀ u, u < g.span → g.hasVertex u = true →
    ∀ v ∈ g.nbrs u, v < g.span ∧ g.hasVertex v = true ∧ u ∈ g.nbrs v

instance (g : Graph) : Decidable g.Wf := by
  unfold Graph.Wf
  infer_instance

/-- One same-community edge step: both endpoints present, an edge from `a` to
`b`, and the upstream assignment agrees on the two endpoints. -/
def Estep (g : Graph) (vdom : Nat → Nat) (a b : Nat) : Prop :=
  g.Present a ∧ g.Present b ∧ b ∈ g.nbrs a ∧ vdom a = vdom b

/-- Connectivity by a path whose vertices all lie in one community. -/
def Reach (g : Graph) (vdom : Nat → Nat) : Nat → Nat → Prop :=
  Relation.ReflTransGen (Estep g vdom)

theorem reach_refl (g : Graph) (vdom : Nat → Nat) (u : Nat) : Reach g vdom u u :=
  Relation.ReflTransGen.refl

theorem estep_rev (g : Graph) (vdom : Nat → Nat) (hw : g.Wf) {a b : Nat}
    (h : Estep g vdom a b) : Estep g vdom b a := by
  obtain ⟨ha, hb, hmem, hd⟩ := h
  exact ⟨hb, ha, ((hw a ha.1 ha.2 b hmem).2.2), hd.symm⟩

theorem reach_rev (g : Graph) (vdom : Nat → Nat) (hw : g.Wf) {u v : Nat}
    (h : Reach g vdom u v) : Reach g vdom v u := by
  induction h with
  | refl => exact Relation.ReflTransGen.refl
  | tail _ hbc ih => exact Relation.ReflTransGen.head (estep_rev g vdom hw hbc) ih

theorem reach_present (g : Graph) (vdom : Nat → Nat) {u v : Nat}
    (h : Reach g vdom u v) : u = v ∨ g.Present v := by
  induction h with
  | refl => exact Or.inl rfl
  | tail _ hbc _ => exact Or.inr hbc.2.1

theorem reach_present_of_present (g : Graph) (vdom : Nat → Nat) {u v : Nat}
    (hu : g.Present u) (h : Reach g vdom u v) : g.Present v := by
  rcases reach_present g vdom h with h' | h'
  · exact h' ▸ hu
  · exact h'

theorem reach_dom (g : Graph) (vdom : Nat → Nat) {u v : Nat}
    (h : Reach g vdom u v) : vdom u = vdom v := by
  induction h with
  | refl => rfl
  | tail _ hbc ih => exact ih.trans hbc.2.2.2

theorem reach_iff_of_reach (g : Graph) (vdom : Nat → Nat) (hw : g.Wf) {u v : Nat}
    (h : Reach g vdom u v) (z : Nat) : Reach g vdom u z ↔ Reach g vdom v z :=
  ⟨fun hz => (reach_rev g vdom hw h).trans hz, fun hz => h.trans hz⟩

theorem reach_set_eq (g : Graph) (vdom : Nat → Nat) (hw : g.Wf) {u v : Nat}
    (h : Reach g vdom u v) : {z | Reach g vdom u z} = {z | Reach g vdom v z} :=
  Set.ext fun z => reach_iff_of_reach g vdom hw h z

theorem reach_least_exists (g : Graph) (vdom : Nat → Nat) (u : Nat) :
    ∃ m, IsLeast {z | Reach g vdom u z} m := by
  refine ⟨sInf {z | Reach g vdom u z}, Nat.sInf_mem ⟨u, reach_refl g vdom u⟩, ?_⟩
  intro b hb
  exact Nat.sInf_le hb

/-- The specification a splitter's output satisfies: on present vertices it is
the least vertex id of the same-community connected piece, and every other id
keeps its initialization value. -/
def Splits (g : Graph) (vdom : Nat → Nat) (f : Nat → Nat) : Prop :=
  (∀ u, g.Present u → IsLeast {z | Reach g vdom u z} (f u)) ∧
  (∀ u, ¬ g.Present u → f u = u)

theorem splits_unique (g : Graph) (vdom : Nat → Nat) {f f' : Nat → Nat}
    (h : Splits g vdom f) (h' : Splits g vdom f') : ∀ u, f u = f' u := by
  intro u
  by_cases hu : g.Present u
  · exact (h.1 u hu).unique (h'.1 u hu)
  · rw [h.2 u hu, h'.2 u hu]

theorem splits_mem_reach (g : Graph) (vdom : Nat → Nat) {f : Nat → Nat}
    (h : Splits g vdom f) {u : Nat} (hu : g.Present u) : Reach g vdom u (f u) :=
  (h.1 u hu).1

theorem splits_class_iff (g : Graph) (vdom : Nat → Nat) (hw : g.Wf) {f : Nat → Nat}
    (h : Splits g vdom f) {u v : Nat} (hu : g.Present u) (hv : g.Present v) :
    f u = f v ↔ Reach g vdom u v := by
  constructor
  · intro he
    have h1 : Reach g vdom u (f u) := splits_mem_reach g vdom h hu
    have h2 : Reach g vdom v (f v) := splits_mem_reach g vdom h hv
    exact h1.trans (he ▸ reach_rev g vdom hw h2)
  · intro hr
    have h1 := h.1 u hu
    have h2 := h.1 v hv
    rw [reach_set_eq g vdom hw hr] at h1
    exact h1.unique h2

theorem splits_self (g : Graph) (vdom : Nat → Nat) (hw : g.Wf) {f : Nat → Nat}
    (h : Splits g vdom f) : Splits g f f := by
  have hstep : ∀ a b, Estep g f a b → Reach g vdom a b := by
    intro a b hab
    obtain ⟨ha, hb, hmem, hfd⟩ := hab
    have h1 : Reach g vdom a (f a) := splits_mem_reach g vdom h ha
    have h2 : Reach g vdom b (f b) := splits_mem_reach g vdom h hb
    exact h1.trans (hfd ▸ reach_rev g vdom hw h2)
  have hiff : ∀ u z, Reach g f u z ↔ Reach g vdom u z := by
    intro u z
    constructor
    · intro hr
      induction hr with
      | refl => exact reach_refl g vdom u
      | tail _ hbc ih => exact ih.trans (hstep _ _ hbc)
    · intro hr
      refine Relation.ReflTransGen.mono ?_ hr
      intro a b hab
      have hfd : f a = f b := by
        have ha := hab.1
        have hb := hab.2.1
        exact (splits_class_iff g vdom hw h ha hb).mpr (Relation.ReflTransGen.single hab)
      exact ⟨hab.1, hab.2.1, hab.2.2.1, hfd⟩
  constructor
  · intro u hu
    have hl := h.1 u hu
    have hset : {z | Reach g f u z} = {z | Reach g vdom u z} := Set.ext fun z => hiff u z
    rw [hset]
    exact hl
  · exact h.2

/-! ## Label propagation splitter (`splitDisconnectedCommunitiesLpaOmpW`)

Faithful embedding of the template: `prune` is the `PRUNE` template
parameter, the scratch buffer `vaff` is part of the state, and `ndel`
is the per-round change counter.  A round is one `parallel for` over
`u = 0 .. S-1`, in the single-worker schedule. -/

/-- Accumulation of `x.forEachEdgeKey(u, ...)` in the propagation step:
`if (vdom[v]==d) c = min(c, vcom[v]);` folded over the neighbour list. -/
def lpaMinAux (vdom : Nat → Nat) (d : Nat) (vc : Nat → Nat) : List Nat → Nat → Nat
  | [], c => c
  | v :: l, c => lpaMinAux vdom d vc l (if vdom v = d then min c (vc v) else c)

/-- The candidate label of line 40-45: minimum of `vcom[u]` and the labels of
same-community neighbours. -/
def lpaMin (g : Graph) (vdom : Nat → Nat) (vc : Nat → Nat) (u : Nat) : Nat :=
  lpaMinAux vdom (vdom u) vc (g.nbrs u) (vc u)

structure LpaSt where
  vcom : Nat → Nat
  vaff : Nat → Bool

/-- Body of the round loop (lines 37-53) for one vertex `u`.  The candidate `c`
of the source is written out as `lpaMin g vdom st.1.vcom u`. -/
def lpaStep (prune : Bool) (g : Graph) (vdom : Nat → Nat) (st : LpaSt × Nat) (u : Nat) :
    LpaSt × Nat :=
  if g.hasVertex u = false then st
  else if prune = true ∧ st.1.vaff u = false then st
  else if lpaMin g vdom st.1.vcom u = st.1.vcom u then st
  else
    ({ vcom := Function.update st.1.vcom u (lpaMin g vdom st.1.vcom u)
       vaff :=
         if prune = true then
           fun w => if w ∈ g.nbrs u ∧ vdom w = vdom u then true
             else Function.update st.1.vaff u false w
         else st.1.vaff },
     st.2 + 1)

/-- One synchronized round (lines 35-53): scan all ids, counting changes. -/
def lpaRound (prune : Bool) (g : Graph) (vdom : Nat → Nat) (s : LpaSt) : LpaSt × Nat :=
  (List.range g.span).foldl (lpaStep prune g vdom) (s, 0)

/-- The initialization pass (lines 28-32): `vcom[u] = u`, `vaff[u] = 1`. -/
def lpaInit : LpaSt :=
  { vcom := fun u => u, vaff := fun _ => true }

/-- Sum of the labels over the id universe; the termination measure of the
round loop. -/
def lpaMeasure (g : Graph) (s : LpaSt) : Nat :=
  ∑ u ∈ Finset.range g.span, s.vcom u

theorem lpaMinAux_le_init (vdom : Nat → Nat) (d : Nat) (vc : Nat → Nat) :
    ∀ (l : List Nat) (c : Nat), lpaMinAux vdom d vc l c ≤ c := by
  intro l
  induction l with
  | nil => intro c; exact Nat.le_refl c
  | cons v l ih =>
    intro c
    by_cases h : vdom v = d
    · simp only [lpaMinAux, h, if_pos]
      exact (ih _).trans (Nat.min_le_left _ _)
    · simp only [lpaMinAux, h, if_neg, ite_false]
      exact ih c

theorem lpaMinAux_le_mem (vdom : Nat → Nat) (d : Nat) (vc : Nat → Nat) :
    ∀ (l : List Nat) (c : Nat) (v : Nat), v ∈ l → vdom v = d →
      lpaMinAux vdom d vc l c ≤ vc v := by
  intro l
  induction l with
  | nil => intro c v hv; exact absurd hv (List.not_mem_nil v)
  | cons w l ih =>
    intro c v hv hd
    rcases List.mem_cons.mp hv with he | hm
    · subst he
      simp only [lpaMinAux, hd, if_pos]
      exact (lpaMinAux_le_init vdom d vc l _).trans (Nat.min_le_right _ _)
    · simp only [lpaMinAux]
      exact ih _ v hm hd

theorem lpaMinAux_cases (vdom : Nat → Nat) (d : Nat) (vc : Nat → Nat) :
    ∀ (l : List Nat) (c : Nat), lpaMinAux vdom d vc l c = c ∨
      ∃ v, v ∈ l ∧ vdom v = d ∧ lpaMinAux vdom d vc l c = vc v := by
  intro l
  induction l with
  | nil => intro c; exact Or.inl rfl
  | cons w l ih =>
    intro c
    by_cases h : vdom w = d
    · simp only [lpaMinAux, h, if_pos]
      rcases ih (min c (vc w)) with h1 | ⟨v, hv, hd, he⟩
      · rcases min_choice c (vc w) with he | he
        · exact Or.inl (h1.trans he)
        · exact Or.inr ⟨w, List.mem_cons_self w l, h, h1.trans he⟩
      · exact Or.inr ⟨v, List.mem_cons_of_mem w hv, hd, he⟩
    · simp only [lpaMinAux, h, if_neg, ite_false]
      rcases ih c with h1 | ⟨v, hv, hd, he⟩
      · exact Or.inl h1
      · exact Or.inr ⟨v, List.mem_cons_of_mem w hv, hd, he⟩

theorem lpaMinAux_const (vdom : Nat → Nat) (d : Nat) (vc : Nat → Nat) :
    ∀ (l : List Nat) (c : Nat), (∀ v ∈ l, vdom v = d → c ≤ vc v) →
      lpaMinAux vdom d vc l c = c := by
  intro l
  induction l with
  | nil => intro c _; rfl
  | cons w l ih =>
    intro c hc
    by_cases h : vdom w = d
    · simp only [lpaMinAux, h, if_pos]
      have : min c (vc w) = c := Nat.min_eq_left (hc w (List.mem_cons_self w l) h)
      rw [this]
      exact ih c fun v hv hd => hc v (List.mem_cons_of_mem w hv) hd
    · simp only [lpaMinAux, h, if_neg, ite_false]
      exact ih c fun v hv hd => hc v (List.mem_cons_of_mem w hv) hd

theorem lpaMinAux_congr (vdom : Nat → Nat) (d : Nat) (vc vc' : Nat → Nat) :
    ∀ (l : List Nat) (c : Nat), (∀ v ∈ l, vdom v = d → vc v = vc' v) →
      lpaMinAux vdom d vc l c = lpaMinAux vdom d vc' l c := by
  intro l
  induction l with
  | nil => intro c _; rfl
  | cons w l ih =>
    intro c hc
    by_cases h : vdom w = d
    · simp only [lpaMinAux, h, if_pos, hc w (List.mem_cons_self w l) h]
      exact ih _ fun v hv hd => hc v (List.mem_cons_of_mem w hv) hd
    · simp only [lpaMinAux, h, if_neg, ite_false]
      exact ih _ fun v hv hd => hc v (List.mem_cons_of_mem w hv) hd

/-- Generic invariant preservation along a left fold. -/
theorem foldlInv {α β : Type} (f : β → α → β) (P : β → Prop) :
    ∀ (l : List α) (b : β), P b → (∀ x a, a ∈ l → P x → P (f x a)) → P (l.foldl f b) := by
  intro l
  induction l with
  | nil => intro b hb _; exact hb
  | cons a l ih =>
    intro b hb hf
    exact ih (f b a) (hf b a (List.mem_cons_self a l) hb)
      fun x a' ha' hx => hf x a' (List.mem_cons_of_mem a ha') hx

theorem lpaStep_absent (prune : Bool) (g : Graph) (vdom : Nat → Nat)
    (st : LpaSt × Nat) (u : Nat) (h : g.hasVertex u = false) :
    lpaStep prune g vdom st u = st := by
  unfold lpaStep
  rw [if_pos h]

theorem lpaStep_pruned (prune : Bool) (g : Graph) (vdom : Nat → Nat)
    (st : LpaSt × Nat) (u : Nat) (hv : g.hasVertex u = true)
    (hp : prune = true ∧ st.1.vaff u = false) :
    lpaStep prune g vdom st u = st := by
  unfold lpaStep
  rw [if_neg (by simp [hv]), if_pos hp]

theorem lpaStep_nochange (prune : Bool) (g : Graph) (vdom : Nat → Nat)
    (st : LpaSt × Nat) (u : Nat) (hv : g.hasVertex u = true)
    (hp : ¬ (prune = true ∧ st.1.vaff u = false))
    (hc : lpaMin g vdom st.1.vcom u = st.1.vcom u) :
    lpaStep prune g vdom st u = st := by
  unfold lpaStep
  rw [if_neg (by simp [hv]), if_neg hp, if_pos hc]

theorem lpaStep_change (prune : Bool) (g : Graph) (vdom : Nat → Nat)
    (st : LpaSt × Nat) (u : Nat) (hv : g.hasVertex u = true)
    (hp : ¬ (prune = true ∧ st.1.vaff u = false))
    (hc : lpaMin g vdom st.1.vcom u ≠ st.1.vcom u) :
    lpaStep prune g vdom st u =
      ({ vcom := Function.update st.1.vcom u (lpaMin g vdom st.1.vcom u)
         vaff :=
           if prune = true then
             fun w => if w ∈ g.nbrs u ∧ vdom w = vdom u then true
               else Function.update st.1.vaff u false w
           else st.1.vaff },
       st.2 + 1) := by
  unfold lpaStep
  rw [if_neg (by simp [hv]), if_neg hp, if_neg hc]

/-- Every step either returns the state unchanged or performs the update branch. -/
theorem lpaStep_cases (prune : Bool) (g : Graph) (vdom : Nat → Nat)
    (st : LpaSt × Nat) (u : Nat) :
    lpaStep prune g vdom st u = st ∨
      (g.hasVertex u = true ∧ ¬ (prune = true ∧ st.1.vaff u = false) ∧
       lpaMin g vdom st.1.vcom u ≠ st.1.vcom u ∧
       lpaStep prune g vdom st u =
        ({ vcom := Function.update st.1.vcom u (lpaMin g vdom st.1.vcom u)
           vaff :=
             if prune = true then
               fun w => if w ∈ g.nbrs u ∧ vdom w = vdom u then true
                 else Function.update st.1.vaff u false w
             else st.1.vaff },
         st.2 + 1)) := by
  by_cases hv : g.hasVertex u = false
  · exact Or.inl (lpaStep_absent prune g vdom st u hv)
  · have hv' : g.hasVertex u = true := by
      cases h : g.hasVertex u
      · exact absurd h hv
      · rfl
    by_cases hp : prune = true ∧ st.1.vaff u = false
    · exact Or.inl (lpaStep_pruned prune g vdom st u hv' hp)
    · by_cases hc : lpaMin g vdom st.1.vcom u = st.1.vcom u
      · exact Or.inl (lpaStep_nochange prune g vdom st u hv' hp hc)
      · exact Or.inr ⟨hv', hp, hc, lpaStep_change prune g vdom st u hv' hp hc⟩

theorem lpaStep_ndel_le (prune : Bool) (g : Graph) (vdom : Nat → Nat)
    (st : LpaSt × Nat) (u : Nat) : st.2 ≤ (lpaStep prune g vdom st u).2 := by
  rcases lpaStep_cases prune g vdom st u with he | ⟨_, _, _, he⟩
  · rw [he]
  · rw [he]
    exact Nat.le_succ _

theorem lpaStep_eq_of_ndel (prune : Bool) (g : Graph) (vdom : Nat → Nat)
    (st : LpaSt × Nat) (u : Nat) (h : (lpaStep prune g vdom st u).2 = st.2) :
    lpaStep prune g vdom st u = st := by
  rcases lpaStep_cases prune g vdom st u with he | ⟨_, _, _, he⟩
  · exact he
  · rw [he] at h
    exact absurd h (Nat.succ_ne_self st.2)

theorem lpaStep_skip_anatomy (prune : Bool) (g : Graph) (vdom : Nat → Nat)
    (st : LpaSt × Nat) (u : Nat) (he : lpaStep prune g vdom st u = st)
    (hv : g.hasVertex u = true) :
    (prune = true ∧ st.1.vaff u = false) ∨ lpaMin g vdom st.1.vcom u = st.1.vcom u := by
  by_cases hp : prune = true ∧ st.1.vaff u = false
  · exact Or.inl hp
  · by_cases hc : lpaMin g vdom st.1.vcom u = st.1.vcom u
    · exact Or.inr hc
    · exfalso
      have h2 := lpaStep_change prune g vdom st u hv hp hc
      rw [he] at h2
      have : st.2 = st.2 + 1 := congrArg Prod.snd h2
      exact Nat.succ_ne_self st.2 this.symm

theorem lpaRound_spec (prune : Bool) (g : Graph) (vdom : Nat → Nat) (s : LpaSt) :
    ((lpaRound prune g vdom s).2 = 0 → (lpaRound prune g vdom s).1 = s) ∧
    (∀ w, (lpaRound prune g vdom s).1.vcom w ≤ s.vcom w) ∧
    ((lpaRound prune g vdom s).2 ≠ 0 →
      lpaMeasure g (lpaRound prune g vdom s).1 < lpaMeasure g s) := by
  unfold lpaRound
  refine foldlInv (lpaStep prune g vdom)
    (fun st => (st.2 = 0 → st.1 = s) ∧ (∀ w, st.1.vcom w ≤ s.vcom w) ∧
      (st.2 ≠ 0 → lpaMeasure g st.1 < lpaMeasure g s))
    (List.range g.span) (s, 0) ⟨fun _ => rfl, fun _ => Nat.le_refl _, fun h => absurd rfl h⟩ ?_
  intro st u hu ⟨h0, hle, hlt⟩
  have hus : u < g.span := List.mem_range.mp hu
  rcases lpaStep_cases prune g vdom st u with he | ⟨_, _, hc, he⟩
  · rw [he]; exact ⟨h0, hle, hlt⟩
  · rw [he]
    have hcle : lpaMin g vdom st.1.vcom u ≤ st.1.vcom u := lpaMinAux_le_init _ _ _ _ _
    have hclt : lpaMin g vdom st.1.vcom u < st.1.vcom u := Nat.lt_of_le_of_ne hcle hc
    refine ⟨fun h => absurd h (Nat.succ_ne_zero st.2), ?_, ?_⟩
    · intro w
      by_cases hwu : w = u
      · subst hwu
        simp only [Function.update_same]
        exact (Nat.le_of_lt hclt).trans (hle w)
      · simp only [Function.update_noteq hwu]
        exact hle w
    · intro _
      have hlt1 : lpaMeasure g
          { vcom := Function.update st.1.vcom u (lpaMin g vdom st.1.vcom u),
            vaff := if prune = true then
                fun w => if w ∈ g.nbrs u ∧ vdom w = vdom u then true
                  else Function.update st.1.vaff u false w
              else st.1.vaff } < lpaMeasure g st.1 := by
        unfold lpaMeasure
        refine Finset.sum_lt_sum ?_ ⟨u, Finset.mem_range.mpr hus, ?_⟩
        · intro i _
          by_cases hiu : i = u
          · subst hiu; simp only [Function.update_same]; exact Nat.le_of_lt hclt
          · simp only [Function.update_noteq hiu]; exact Nat.le_refl _
        · simp only [Function.update_same]; exact hclt
      have hle1 : lpaMeasure g st.1 ≤ lpaMeasure g s := by
        unfold lpaMeasure
        exact Finset.sum_le_sum fun i _ => hle i
      exact Nat.lt_of_lt_of_le hlt1 hle1

/-- The `while (true)` loop of lines 34-55: repeat rounds until one makes no
change.  Terminates because a changing round strictly decreases the label sum. -/
def lpaLoop (prune : Bool) (g : Graph) (vdom : Nat → Nat) (s : LpaSt) : LpaSt :=
  if h : (lpaRound prune g vdom s).2 = 0 then (lpaRound prune g vdom s).1
  else lpaLoop prune g vdom (lpaRound prune g vdom s).1
termination_by lpaMeasure g s
decreasing_by exact (lpaRound_spec prune g vdom s).2.2 h

/-- `splitDisconnectedCommunitiesLpaOmpW` (lines 24-56): initialization pass
followed by the round loop; the output is the final `vcom` buffer. -/
def splitDisconnectedCommunitiesLpaOmpW (prune : Bool) (g : Graph) (vdom : Nat → Nat) :
    Nat → Nat :=
  (lpaLoop prune g vdom lpaInit).vcom

/-- Recursion principle following the round loop. -/
theorem lpaLoop_rec (prune : Bool) (g : Graph) (vdom : Nat → Nat)
    (P : LpaSt → LpaSt → Prop)
    (hbase : ∀ s, (lpaRound prune g vdom s).2 = 0 → P s (lpaRound prune g vdom s).1)
    (hrec : ∀ s, (lpaRound prune g vdom s).2 ≠ 0 →
      P (lpaRound prune g vdom s).1 (lpaLoop prune g vdom (lpaRound prune g vdom s).1) →
      P s (lpaLoop prune g vdom (lpaRound prune g vdom s).1)) :
    ∀ s, P s (lpaLoop prune g vdom s) := by
  intro s
  generalize hm : lpaMeasure g s = m
  induction m using Nat.strong_induction_on generalizing s with
  | _ m ih =>
    rw [lpaLoop]
    by_cases h : (lpaRound prune g vdom s).2 = 0
    · rw [dif_pos h]
      exact hbase s h
    · rw [dif_neg h]
      refine hrec s h (ih _ ?_ _ rfl)
      rw [← hm]
      exact (lpaRound_spec prune g vdom s).2.2 h

/-- At the loop's result, one more round makes no change at all. -/
theorem lpaLoop_fix (prune : Bool) (g : Graph) (vdom : Nat → Nat) (s : LpaSt) :
    lpaRound prune g vdom (lpaLoop prune g vdom s) = (lpaLoop prune g vdom s, 0) := by
  refine lpaLoop_rec prune g vdom
    (fun s r => lpaRound prune g vdom r = (r, 0)) ?_ ?_ s
  · intro s h
    have h1 : (lpaRound prune g vdom s).1 = s := (lpaRound_spec prune g vdom s).1 h
    have h2 : lpaRound prune g vdom s = (s, 0) := by
      rw [Prod.ext_iff]
      exact ⟨h1, h⟩
    rw [h1, h2]
  · intro s _ ih
    exact ih

/-- Any property preserved by a round transfers from a state to the loop's result. -/
theorem lpaLoop_inv (prune : Bool) (g : Graph) (vdom : Nat → Nat)
    (Q : LpaSt → Prop) (hQ : ∀ s, Q s → Q (lpaRound prune g vdom s).1) :
    ∀ s, Q s → Q (lpaLoop prune g vdom s) := by
  refine lpaLoop_rec prune g vdom (fun s r => Q s → Q r) ?_ ?_
  · intro s _ hs
    exact hQ s hs
  · intro s _ ih hs
    exact ih (hQ s hs)

theorem fold_ndel_mono (prune : Bool) (g : Graph) (vdom : Nat → Nat) :
    ∀ (l : List Nat) (st : LpaSt × Nat),
      st.2 ≤ (l.foldl (lpaStep prune g vdom) st).2 := by
  intro l
  induction l with
  | nil => intro st; exact Nat.le_refl _
  | cons u l ih =>
    intro st
    exact (lpaStep_ndel_le prune g vdom st u).trans (ih _)

theorem fold_stall (prune : Bool) (g : Graph) (vdom : Nat → Nat) :
    ∀ (l : List Nat) (st : LpaSt × Nat),
      (l.foldl (lpaStep prune g vdom) st).2 = st.2 →
      (∀ u ∈ l, lpaStep prune g vdom st u = st) ∧ l.foldl (lpaStep prune g vdom) st = st := by
  intro l
  induction l with
  | nil => intro st _; exact ⟨fun u hu => absurd hu (List.not_mem_nil u), rfl⟩
  | cons u l ih =>
    intro st hz
    have h1 : st.2 ≤ (lpaStep prune g vdom st u).2 := lpaStep_ndel_le prune g vdom st u
    have h2 : (lpaStep prune g vdom st u).2 ≤
        ((u :: l).foldl (lpaStep prune g vdom) st).2 := by
      simp only [List.foldl_cons]
      exact fold_ndel_mono prune g vdom l _
    have he2 : (lpaStep prune g vdom st u).2 = st.2 :=
      Nat.le_antisymm (hz ▸ h2) h1
    have he : lpaStep prune g vdom st u = st :=
      lpaStep_eq_of_ndel prune g vdom st u he2
    have hz' : (l.foldl (lpaStep prune g vdom) st).2 = st.2 := by
      have : (u :: l).foldl (lpaStep prune g vdom) st = l.foldl (lpaStep prune g vdom) st := by
        simp only [List.foldl_cons, he]
      rw [this] at hz
      exact hz
    obtain ⟨ha, hb⟩ := ih st hz'
    refine ⟨?_, ?_⟩
    · intro v hv
      rcases List.mem_cons.mp hv with hv | hv
      · subst hv; exact he
      · exact ha v hv
    · simp only [List.foldl_cons, he, hb]

/-- If a round makes no change then at the round's input state every present
vertex is either prune-skipped or has a stable label. -/
theorem lpaRound_exact (prune : Bool) (g : Graph) (vdom : Nat → Nat) (s : LpaSt)
    (h : (lpaRound prune g vdom s).2 = 0) :
    ∀ u, g.Present u →
      (prune = true ∧ s.vaff u = false) ∨ lpaMin g vdom s.vcom u = s.vcom u := by
  intro u hu
  have hz : ((List.range g.span).foldl (lpaStep prune g vdom) (s, 0)).2 = ((s, (0 : Nat))).2 := by
    unfold lpaRound at h
    exact h
  have hstall := (fold_stall prune g vdom (List.range g.span) (s, 0) hz).1
  have hmem : u ∈ List.range g.span := List.mem_range.mpr hu.1
  have he : lpaStep prune g vdom (s, 0) u = (s, 0) := hstall u hmem
  exact lpaStep_skip_anatomy prune g vdom (s, 0) u he hu.2

/-- Invariant: each label is a vertex of its owner's same-community piece (and
at most the owner's id); ids that are not present keep their initial value. -/
def LpaReachInv (g : Graph) (vdom : Nat → Nat) (vc : Nat → Nat) : Prop :=
  ∀ u, (g.Present u → Reach g vdom u (vc u) ∧ vc u ≤ u) ∧ (¬ g.Present u → vc u = u)

theorem lpaStep_reachInv (prune : Bool) (g : Graph) (vdom : Nat → Nat) (hw : g.Wf)
    (st : LpaSt × Nat) (u : Nat) (hu : u < g.span)
    (hinv : LpaReachInv g vdom st.1.vcom) :
    LpaReachInv g vdom (lpaStep prune g vdom st u).1.vcom := by
  rcases lpaStep_cases prune g vdom st u with he | ⟨hv, _, _, he⟩
  · rw [he]; exact hinv
  · rw [he]
    intro w
    by_cases hwu : w = u
    · subst hwu
      have hpw : g.Present w := ⟨hu, hv⟩
      constructor
      · intro _
        simp only [Function.update_same]
        have hcle : lpaMin g vdom st.1.vcom w ≤ st.1.vcom w := lpaMinAux_le_init _ _ _ _ _
        refine ⟨?_, hcle.trans ((hinv w).1 hpw).2⟩
        rcases lpaMinAux_cases vdom (vdom w) st.1.vcom (g.nbrs w) (st.1.vcom w)
          with hcc | ⟨v, hvmem, hvd, hcc⟩
        · unfold lpaMin
          rw [hcc]
          exact ((hinv w).1 hpw).1
        · unfold lpaMin
          rw [hcc]
          have hpv : g.Present v :=
            ⟨(hw w hu hv v hvmem).1, (hw w hu hv v hvmem).2.1⟩
          have hev : Estep g vdom w v := ⟨hpw, hpv, hvmem, hvd.symm⟩
          exact (Relation.ReflTransGen.single hev).trans ((hinv v).1 hpv).1
      · intro hnp
        exact absurd hpw hnp
    · simp only [Function.update_noteq hwu]
      exact hinv w

theorem lpaRound_reachInv (prune : Bool) (g : Graph) (vdom : Nat → Nat) (hw : g.Wf)
    (s : LpaSt) (hinv : LpaReachInv g vdom s.vcom) :
    LpaReachInv g vdom (lpaRound prune g vdom s).1.vcom := by
  unfold lpaRound
  refine foldlInv (lpaStep prune g vdom) (fun st => LpaReachInv g vdom st.1.vcom)
    (List.range g.span) (s, 0) hinv ?_
  intro st u humem hst
  exact lpaStep_reachInv prune g vdom hw st u (List.mem_range.mp humem) hst

/-- Pruning invariant: an unflagged present vertex already has a stable label. -/
def LpaPruneInv (g : Graph) (vdom : Nat → Nat) (s : LpaSt) : Prop :=
  ∀ u, g.Present u → s.vaff u = false → lpaMin g vdom s.vcom u = s.vcom u

theorem lpaStep_pruneInv (g : Graph) (vdom : Nat → Nat) (hw : g.Wf)
    (st : LpaSt × Nat) (u : Nat) (hu : u < g.span)
    (hinv : LpaPruneInv g vdom st.1) :
    LpaPruneInv g vdom (lpaStep true g vdom st u).1 := by
  rcases lpaStep_cases true g vdom st u with he | ⟨hv, hp, hc, he⟩
  · rw [he]; exact hinv
  · rw [he]
    intro w hpw haw
    have haw' : (if w ∈ g.nbrs u ∧ vdom w = vdom u then true
        else Function.update st.1.vaff u false w) = false := haw
    show lpaMin g vdom (Function.update st.1.vcom u (lpaMin g vdom st.1.vcom u)) w =
      Function.update st.1.vcom u (lpaMin g vdom st.1.vcom u) w
    by_cases hwm : w ∈ g.nbrs u ∧ vdom w = vdom u
    · rw [if_pos hwm] at haw'
      exact absurd haw' (by simp)
    · rw [if_neg hwm] at haw'
      by_cases hwu : w = u
      · subst hwu
        have hloop : w ∉ g.nbrs w := by
          intro hmem
          exact hwm ⟨hmem, rfl⟩
        unfold lpaMin
        simp only [Function.update_same]
        refine lpaMinAux_const vdom (vdom w) _ (g.nbrs w) _ ?_
        intro v hvmem hvd
        have hvu : v ≠ w := fun hvw => hloop (hvw ▸ hvmem)
        rw [Function.update_noteq hvu]
        exact lpaMinAux_le_mem vdom (vdom w) st.1.vcom (g.nbrs w) (st.1.vcom w) v hvmem hvd
      · rw [Function.update_noteq hwu] at haw'
        have hold : lpaMin g vdom st.1.vcom w = st.1.vcom w := hinv w hpw haw'
        have hune : u ∉ g.nbrs w ∨ vdom u ≠ vdom w := by
          by_cases hum : u ∈ g.nbrs w
          · right
            intro hud
            have := (hw w hpw.1 hpw.2 u hum).2.2
            exact hwm ⟨this, hud.symm⟩
          · left; exact hum
        have hcongr : lpaMinAux vdom (vdom w) (Function.update st.1.vcom u
              (lpaMin g vdom st.1.vcom u)) (g.nbrs w) (Function.update st.1.vcom u
              (lpaMin g vdom st.1.vcom u) w) =
            lpaMinAux vdom (vdom w) st.1.vcom (g.nbrs w) (st.1.vcom w) := by
          rw [Function.update_noteq hwu]
          refine lpaMinAux_congr vdom (vdom w) _ st.1.vcom (g.nbrs w) (st.1.vcom w) ?_
          intro v hvmem hvd
          have hvu : v ≠ u := by
            intro hveq
            subst hveq
            rcases hune with h' | h'
            · exact h' hvmem
            · exact h' hvd
          rw [Function.update_noteq hvu]
        show lpaMinAux vdom (vdom w) (Function.update st.1.vcom u
            (lpaMin g vdom st.1.vcom u)) (g.nbrs w) (Function.update st.1.vcom u
            (lpaMin g vdom st.1.vcom u) w) =
          Function.update st.1.vcom u (lpaMin g vdom st.1.vcom u) w
        rw [hcongr, Function.update_noteq hwu]
        exact hold

theorem lpaRound_pruneInv (g : Graph) (vdom : Nat → Nat) (hw : g.Wf)
    (s : LpaSt) (hinv : LpaPruneInv g vdom s) :
    LpaPruneInv g vdom (lpaRound true g vdom s).1 := by
  unfold lpaRound
  refine foldlInv (lpaStep true g vdom) (fun st => LpaPruneInv g vdom st.1)
    (List.range g.span) (s, 0) hinv ?_
  intro st u humem hst
  exact lpaStep_pruneInv g vdom hw st u (List.mem_range.mp humem) hst

/-- A stable labelling whose labels live inside their pieces is the least
labelling of each piece. -/
theorem localmin_isLeast (g : Graph) (vdom : Nat → Nat) (hw : g.Wf) (vc : Nat → Nat)
    (hinv : LpaReachInv g vdom vc)
    (hloc : ∀ u, g.Present u → lpaMin g vdom vc u = vc u) :
    ∀ u, g.Present u → IsLeast {z | Reach g vdom u z} (vc u) := by
  have hmono : ∀ a b, Reach g vdom a b → vc a ≤ vc b := by
    intro a b hab
    induction hab with
    | refl => exact Nat.le_refl _
    | tail _ hbc ih =>
      refine ih.trans ?_
      obtain ⟨hpb, _, hmem, hd⟩ := hbc
      have := hloc _ hpb
      unfold lpaMin at this
      calc _ = lpaMinAux vdom (vdom _) vc (g.nbrs _) (vc _) := this.symm
      _ ≤ _ := lpaMinAux_le_mem vdom _ vc _ _ _ hmem hd.symm
  intro u hu
  refine ⟨((hinv u).1 hu).1, ?_⟩
  intro w hwreach
  have h1 : vc u ≤ vc w := hmono u w hwreach
  have h2 : vc w ≤ w := by
    rcases reach_present g vdom hwreach with he | hpw
    · subst he; exact ((hinv u).1 hu).2
    · exact ((hinv w).1 hpw).2
  exact h1.trans h2

/-- Main theorem for the label-propagation splitter: for any `PRUNE` value the
output is exactly the least-id labelling of the same-community pieces. -/
theorem lpa_splits (prune : Bool) (g : Graph) (vdom : Nat → Nat) (hw : g.Wf) :
    Splits g vdom (splitDisconnectedCommunitiesLpaOmpW prune g vdom) := by
  have hinit : LpaReachInv g vdom lpaInit.vcom := by
    intro u
    exact ⟨fun _ => ⟨reach_refl g vdom u, Nat.le_refl u⟩, fun _ => rfl⟩
  have hreach : LpaReachInv g vdom (lpaLoop prune g vdom lpaInit).vcom := by
    have := lpaLoop_inv prune g vdom (fun s => LpaReachInv g vdom s.vcom)
      (fun s hs => lpaRound_reachInv prune g vdom hw s hs) lpaInit hinit
    exact this
  have hpr : prune = true → LpaPruneInv g vdom (lpaLoop prune g vdom lpaInit) := by
    intro hp
    subst hp
    refine lpaLoop_inv true g vdom (LpaPruneInv g vdom)
      (fun s hs => lpaRound_pruneInv g vdom hw s hs) lpaInit ?_
    intro u _ hfa
    exact absurd hfa (by simp [lpaInit])
  have hfix := lpaLoop_fix prune g vdom lpaInit
  have hloc : ∀ u, g.Present u →
      lpaMin g vdom (lpaLoop prune g vdom lpaInit).vcom u =
        (lpaLoop prune g vdom lpaInit).vcom u := by
    intro u hu
    have hz : (lpaRound prune g vdom (lpaLoop prune g vdom lpaInit)).2 = 0 := by
      rw [hfix]
    rcases lpaRound_exact prune g vdom (lpaLoop prune g vdom lpaInit) hz u hu with
      ⟨hp, hfa⟩ | hc
    · exact hpr hp u hu hfa
    · exact hc
  constructor
  · intro u hu
    exact localmin_isLeast g vdom hw (lpaLoop prune g vdom lpaInit).vcom hreach hloc u hu
  · intro u hu
    exact ((hreach u).2 hu)

/-- The state after `n` completed rounds, starting from the initialization pass. -/
def lpaIter (prune : Bool) (g : Graph) (vdom : Nat → Nat) : Nat → LpaSt
  | 0 => lpaInit
  | n + 1 => (lpaRound prune g vdom (lpaIter prune g vdom n)).1

/-- Iterating rounds from an arbitrary state, unfolding from the first round. -/
def lpaIterFrom (prune : Bool) (g : Graph) (vdom : Nat → Nat) : LpaSt → Nat → LpaSt
  | s, 0 => s
  | s, n + 1 => lpaIterFrom prune g vdom (lpaRound prune g vdom s).1 n

theorem lpaLoop_reaches_fix (prune : Bool) (g : Graph) (vdom : Nat → Nat) :
    ∀ s, ∃ n, (lpaRound prune g vdom (lpaIterFrom prune g vdom s n)).2 = 0 ∧
      lpaLoop prune g vdom s = lpaIterFrom prune g vdom s n := by
  refine lpaLoop_rec prune g vdom (fun s r =>
    ∃ n, (lpaRound prune g vdom (lpaIterFrom prune g vdom s n)).2 = 0 ∧
      r = lpaIterFrom prune g vdom s n) ?_ ?_
  · intro s h
    exact ⟨0, h, (lpaRound_spec prune g vdom s).1 h⟩
  · intro s _ ih
    obtain ⟨n, hz, he⟩ := ih
    exact ⟨n + 1, hz, he⟩

theorem lpaIter_vcom_mono (prune : Bool) (g : Graph) (vdom : Nat → Nat) (u : Nat) :
    ∀ n m, n ≤ m → (lpaIter prune g vdom m).vcom u ≤ (lpaIter prune g vdom n).vcom u := by
  intro n m hnm
  induction m with
  | zero =>
    have : n = 0 := Nat.le_zero.mp hnm
    subst this
    exact Nat.le_refl _
  | succ m ih =>
    rcases Nat.lt_or_ge n (m + 1) with hlt | hge
    · have hnm' : n ≤ m := Nat.lt_succ_iff.mp hlt
      refine Nat.le_trans ?_ (ih hnm')
      exact (lpaRound_spec prune g vdom (lpaIter prune g vdom m)).2.1 u
    · have : n = m + 1 := Nat.le_antisymm hnm hge
      subst this
      exact Nat.le_refl _

/-! ## Restricted traversal (used by the DFS and BFS splitters)

`dfsVisitedForEachU` and `bfsVisitedForEachU` live in `dfs.hxx` / `bfs.hxx`,
which are not part of this module's sources; they are modelled from the spec:
a traversal from a start vertex confined to vertices satisfying a predicate
(same community and not yet visited), visiting each reachable vertex once.
The model computes the visited set by saturating neighbour expansion; which
order vertices are discovered in (depth- or breadth-first) does not change
the set, which is all the splitters use. -/

/-- One sweep of `fold`: append the not-yet-collected neighbours of `a`
that satisfy `p` in front of the collection. -/
def expandInner (p : Nat → Bool) : List Nat → List Nat → List Nat
  | [], l => l
  | v :: vs, l => expandInner p vs (if p v = true ∧ v ∉ l then v :: l else l)

/-- Expand every vertex of the worklist once. -/
def expandOuter (g : Graph) (p : Nat → Bool) : List Nat → List Nat → List Nat
  | [], l => l
  | a :: as, l => expandOuter g p as (expandInner p (g.nbrs a) l)

def expandFull (g : Graph) (p : Nat → Bool) (acc : List Nat) : List Nat :=
  expandOuter g p acc acc

/-- Saturate the expansion; the collection stabilizes once a sweep adds nothing. -/
def reachAux (g : Graph) (p : Nat → Bool) : Nat → List Nat → List Nat
  | 0, acc => acc
  | n + 1, acc =>
    if (expandFull g p acc).length = acc.length then acc
    else reachAux g p n (expandFull g p acc)

/-- Modelled from the spec: the set of vertices a traversal rooted at `u` and
restricted to vertices satisfying `p` visits (`dfsVisitedForEachU` of
`dfs.hxx` and `bfsVisitedForEachU` of `bfs.hxx`, which are not under the
module's sources). -/
def traversal (g : Graph) (p : Nat → Bool) (u : Nat) : List Nat :=
  reachAux g p (g.span + 1) [u]

/-- One restricted-traversal step: an edge into a vertex satisfying `p`. -/
def Tstep (g : Graph) (p : Nat → Bool) (a b : Nat) : Prop :=
  b ∈ g.nbrs a ∧ p b = true

theorem expandInner_suffix (p : Nat → Bool) :
    ∀ (vs l : List Nat), l <:+ expandInner p vs l := by
  intro vs
  induction vs with
  | nil => intro l; exact List.suffix_refl l
  | cons v vs ih =>
    intro l
    by_cases h : p v = true ∧ v ∉ l
    · simp only [expandInner, if_pos h]
      exact (List.suffix_cons v l).trans (ih (v :: l))
    · simp only [expandInner, if_neg h]
      exact ih l

theorem expandInner_sub (p : Nat → Bool) :
    ∀ (vs l : List Nat) (x : Nat), x ∈ expandInner p vs l →
      x ∈ l ∨ (x ∈ vs ∧ p x = true) := by
  intro vs
  induction vs with
  | nil => intro l x hx; exact Or.inl hx
  | cons v vs ih =>
    intro l x hx
    rcases ih _ x hx with hx' | ⟨hm, hp⟩
    · by_cases h : p v = true ∧ v ∉ l
      · rw [if_pos h] at hx'
        rcases List.mem_cons.mp hx' with he | hm
        · subst he
          exact Or.inr ⟨List.mem_cons_self x vs, h.1⟩
        · exact Or.inl hm
      · rw [if_neg h] at hx'
        exact Or.inl hx'
    · exact Or.inr ⟨List.mem_cons_of_mem v hm, hp⟩

theorem expandInner_mem (p : Nat → Bool) :
    ∀ (vs l : List Nat) (v : Nat), v ∈ vs → p v = true → v ∈ expandInner p vs l := by
  intro vs
  induction vs with
  | nil => intro l v hv; exact absurd hv (List.not_mem_nil v)
  | cons w vs ih =>
    intro l v hv hp
    rcases List.mem_cons.mp hv with he | hm
    · subst he
      by_cases h : p v = true ∧ v ∉ l
      · simp only [expandInner, if_pos h]
        exact (expandInner_suffix p vs (v :: l)).subset (List.mem_cons_self v l)
      · simp only [expandInner, if_neg h]
        have hvl : v ∈ l := by
          by_cases hvl : v ∈ l
          · exact hvl
          · exact absurd ⟨hp, hvl⟩ h
        exact (expandInner_suffix p vs l).subset hvl
    · exact ih _ v hm hp

theorem expandInner_nodup (p : Nat → Bool) :
    ∀ (vs l : List Nat), l.Nodup → (expandInner p vs l).Nodup := by
  intro vs
  induction vs with
  | nil => intro l hl; exact hl
  | cons v vs ih =>
    intro l hl
    by_cases h : p v = true ∧ v ∉ l
    · simp only [expandInner, if_pos h]
      exact ih _ (List.nodup_cons.mpr ⟨h.2, hl⟩)
    · simp only [expandInner, if_neg h]
      exact ih _ hl

theorem expandOuter_suffix (g : Graph) (p : Nat → Bool) :
    ∀ (as l : List Nat), l <:+ expandOuter g p as l := by
  intro as
  induction as with
  | nil => intro l; exact List.suffix_refl l
  | cons a as ih =>
    intro l
    exact (expandInner_suffix p (g.nbrs a) l).trans (ih _)

theorem expandOuter_sub (g : Graph) (p : Nat → Bool) :
    ∀ (as l : List Nat) (x : Nat), x ∈ expandOuter g p as l →
      x ∈ l ∨ ∃ a ∈ as, x ∈ g.nbrs a ∧ p x = true := by
  intro as
  induction as with
  | nil => intro l x hx; exact Or.inl hx
  | cons a as ih =>
    intro l x hx
    rcases ih _ x hx with hx' | ⟨b, hb, hm, hp⟩
    · rcases expandInner_sub p (g.nbrs a) l x hx' with hx'' | ⟨hm, hp⟩
      · exact Or.inl hx''
      · exact Or.inr ⟨a, List.mem_cons_self a as, hm, hp⟩
    · exact Or.inr ⟨b, List.mem_cons_of_mem a hb, hm, hp⟩

theorem expandOuter_mem (g : Graph) (p : Nat → Bool) :
    ∀ (as l : List Nat) (a v : Nat), a ∈ as → v ∈ g.nbrs a → p v = true →
      v ∈ expandOuter g p as l := by
  intro as
  induction as with
  | nil => intro l a v ha; exact absurd ha (List.not_mem_nil a)
  | cons b as ih =>
    intro l a v ha hv hp
    rcases List.mem_cons.mp ha with he | hm
    · subst he
      simp only [expandOuter]
      exact (expandOuter_suffix g p as _).subset (expandInner_mem p (g.nbrs a) l v hv hp)
    · exact ih _ a v hm hv hp

theorem expandOuter_nodup (g : Graph) (p : Nat → Bool) :
    ∀ (as l : List Nat), l.Nodup → (expandOuter g p as l).Nodup := by
  intro as
  induction as with
  | nil => intro l hl; exact hl
  | cons a as ih =>
    intro l hl
    exact ih _ (expandInner_nodup p (g.nbrs a) l hl)

theorem suffix_eq_of_length {l l' : List Nat} (h : l <:+ l') (he : l'.length = l.length) :
    l' = l :=
  (h.sublist.eq_of_length he.symm).symm

/-- Invariant carried by the expanding collection of a traversal rooted at `u`. -/
def TravInv (g : Graph) (p : Nat → Bool) (u : Nat) (acc : List Nat) : Prop :=
  u ∈ acc ∧ acc.Nodup ∧ (∀ x ∈ acc, g.Present x) ∧
    ∀ x ∈ acc, Relation.ReflTransGen (Tstep g p) u x

theorem nodup_lt_length {l : List Nat} {n : Nat} (hnd : l.Nodup)
    (hlt : ∀ x ∈ l, x < n) : l.length ≤ n := by
  have h1 : l.toFinset ⊆ Finset.range n := by
    intro x hx
    exact Finset.mem_range.mpr (hlt x (List.mem_toFinset.mp hx))
  have h2 : l.toFinset.card = l.length := List.toFinset_card_of_nodup hnd
  have h3 := Finset.card_le_card h1
  rw [h2, Finset.card_range] at h3
  exact h3

theorem expandFull_inv (g : Graph) (p : Nat → Bool) (hw : g.Wf) (u : Nat)
    (acc : List Nat) (hinv : TravInv g p u acc) : TravInv g p u (expandFull g p acc) := by
  obtain ⟨hu, hnd, hpres, hrtg⟩ := hinv
  have hsub : acc ⊆ expandFull g p acc := (expandOuter_suffix g p acc acc).subset
  refine ⟨hsub hu, expandOuter_nodup g p acc acc hnd, ?_, ?_⟩
  · intro x hx
    rcases expandOuter_sub g p acc acc x hx with hx' | ⟨a, ha, hm, _⟩
    · exact hpres x hx'
    · have hpa := hpres a ha
      exact ⟨(hw a hpa.1 hpa.2 x hm).1, (hw a hpa.1 hpa.2 x hm).2.1⟩
  · intro x hx
    rcases expandOuter_sub g p acc acc x hx with hx' | ⟨a, ha, hm, hp⟩
    · exact hrtg x hx'
    · exact (hrtg a ha).tail ⟨hm, hp⟩

theorem reachAux_fix (g : Graph) (p : Nat → Bool) (hw : g.Wf) (u : Nat) :
    ∀ (n : Nat) (acc : List Nat), TravInv g p u acc →
      g.span + 1 ≤ acc.length + n →
      expandFull g p (reachAux g p n acc) = reachAux g p n acc ∧
        TravInv g p u (reachAux g p n acc) ∧ acc ⊆ reachAux g p n acc := by
  intro n
  induction n with
  | zero =>
    intro acc hinv hn
    exfalso
    have hle : acc.length ≤ g.span :=
      nodup_lt_length hinv.2.1 fun x hx => (hinv.2.2.1 x hx).1
    omega
  | succ n ih =>
    intro acc hinv hn
    by_cases hlen : (expandFull g p acc).length = acc.length
    · have hfixed : expandFull g p acc = acc :=
        suffix_eq_of_length (expandOuter_suffix g p acc acc) hlen
      simp only [reachAux, if_pos hlen]
      exact ⟨hfixed, hinv, List.Subset.refl acc⟩
    · have hgrow : acc.length < (expandFull g p acc).length := by
        have hle : acc.length ≤ (expandFull g p acc).length :=
          (expandOuter_suffix g p acc acc).length_le
        omega
      have hinv' := expandFull_inv g p hw u acc hinv
      have hsub : acc ⊆ expandFull g p acc := (expandOuter_suffix g p acc acc).subset
      simp only [reachAux, if_neg hlen]
      obtain ⟨ha, hb, hc⟩ := ih (expandFull g p acc) hinv' (by omega)
      exact ⟨ha, hb, fun x hx => hc (hsub hx)⟩

theorem traversal_spec (g : Graph) (p : Nat → Bool) (hw : g.Wf) (u : Nat)
    (hu : g.Present u) :
    (∀ x, x ∈ traversal g p u ↔ Relation.ReflTransGen (Tstep g p) u x) ∧
    (∀ x ∈ traversal g p u, g.Present x) := by
  have hinv0 : TravInv g p u [u] := by
    refine ⟨List.mem_singleton_self u, List.nodup_singleton u, ?_, ?_⟩
    · intro x hx
      rw [List.mem_singleton.mp hx]
      exact hu
    · intro x hx
      rw [List.mem_singleton.mp hx]
  obtain ⟨hfix, hinv, hsub⟩ :=
    reachAux_fix g p hw u (g.span + 1) [u] hinv0 (by simp)
  have hclosed : ∀ a ∈ traversal g p u, ∀ v ∈ g.nbrs a, p v = true →
      v ∈ traversal g p u := by
    intro a ha v hv hp
    have : v ∈ expandFull g p (traversal g p u) :=
      expandOuter_mem g p (traversal g p u) (traversal g p u) a v ha hv hp
    unfold traversal at *
    rw [hfix] at this
    exact this
  constructor
  · intro x
    constructor
    · intro hx
      exact hinv.2.2.2 x hx
    · intro hx
      induction hx with
      | refl => exact hsub (List.mem_singleton_self u)
      | tail _ hbc ih => exact hclosed _ ih _ hbc.1 hbc.2
  · exact hinv.2.2.1

theorem natBeq_of_eq {a b : Nat} (h : a = b) : (a == b) = true := by
  subst h
  exact beq_self_eq_true a

/-- Invariant of the sequential scan of the traversal-based splitters after the
ids below `k` have been examined: a vertex is visited exactly when the least id
of its piece has been scanned, visited vertices carry that least id as label,
and unvisited ids still hold their initialization value. -/
def ScanInv (g : Graph) (vdom : Nat → Nat) (k : Nat) (vc : Nat → Nat) (vis : Nat → Bool) :
    Prop :=
  (∀ w, vis w = true ↔ (g.Present w ∧ ∃ r, IsLeast {z | Reach g vdom w z} r ∧ r < k)) ∧
  (∀ w, vis w = true → IsLeast {z | Reach g vdom w z} (vc w)) ∧
  (∀ w, vis w = false → vc w = w)

theorem scaninv_zero (g : Graph) (vdom : Nat → Nat) :
    ScanInv g vdom 0 (fun u => u) (fun _ => false) := by
  refine ⟨?_, ?_, ?_⟩
  · intro w
    constructor
    · intro h; exact absurd h (by simp)
    · intro ⟨_, r, _, hr⟩; exact absurd hr (Nat.not_lt_zero r)
  · intro w h; exact absurd h (by simp)
  · intro w _; rfl

theorem scaninv_skip_absent (g : Graph) (vdom : Nat → Nat) (k : Nat)
    (vc : Nat → Nat) (vis : Nat → Bool) (hk : g.hasVertex k = false)
    (hinv : ScanInv g vdom k vc vis) : ScanInv g vdom (k + 1) vc vis := by
  obtain ⟨hA, hB, hC⟩ := hinv
  refine ⟨?_, hB, hC⟩
  intro w
  rw [hA w]
  constructor
  · intro ⟨hp, r, hl, hr⟩
    exact ⟨hp, r, hl, Nat.lt_succ_of_lt hr⟩
  · intro ⟨hp, r, hl, hr⟩
    refine ⟨hp, r, hl, ?_⟩
    rcases Nat.lt_succ_iff_lt_or_eq.mp hr with h' | h'
    · exact h'
    · exfalso
      subst h'
      have hreach : Reach g vdom w r := hl.1
      have hpres : g.Present r := reach_present_of_present g vdom hp hreach
      have h1 := hpres.2
      rw [hk] at h1
      exact Bool.false_ne_true h1

theorem scaninv_skip_visited (g : Graph) (vdom : Nat → Nat) (hw : g.Wf) (k : Nat)
    (vc : Nat → Nat) (vis : Nat → Bool) (hvk : vis k = true)
    (hinv : ScanInv g vdom k vc vis) : ScanInv g vdom (k + 1) vc vis := by
  obtain ⟨hA, hB, hC⟩ := hinv
  refine ⟨?_, hB, hC⟩
  intro w
  rw [hA w]
  constructor
  · intro ⟨hp, r, hl, hr⟩
    exact ⟨hp, r, hl, Nat.lt_succ_of_lt hr⟩
  · intro ⟨hp, r, hl, hr⟩
    refine ⟨hp, r, hl, ?_⟩
    rcases Nat.lt_succ_iff_lt_or_eq.mp hr with h' | h'
    · exact h'
    · exfalso
      subst h'
      obtain ⟨hkp, r', hl', hr'⟩ := (hA r).mp hvk
      have hset : {z | Reach g vdom w z} = {z | Reach g vdom r z} :=
        reach_set_eq g vdom hw hl.1
      rw [hset] at hl
      have : r = r' := hl.unique hl'
      omega

theorem scaninv_process (g : Graph) (vdom : Nat → Nat) (hw : g.Wf) (k : Nat)
    (vc : Nat → Nat) (vis : Nat → Bool) (hkp : g.Present k) (hvk : vis k = false)
    (hinv : ScanInv g vdom k vc vis) (V : List Nat)
    (hV : V = traversal g (fun v => (vdom v == vdom k) && !vis v) k)
    (vc' : Nat → Nat) (vis' : Nat → Bool)
    (hvc' : ∀ w, vc' w = if w ∈ V then vc k else vc w)
    (hvis' : ∀ w, vis' w = if w ∈ V then true else vis w) :
    (∀ x, x ∈ V ↔ Reach g vdom k x) ∧ ScanInv g vdom (k + 1) vc' vis' := by
  obtain ⟨hA, hB, hC⟩ := hinv
  have hkl : IsLeast {z | Reach g vdom k z} k := by
    obtain ⟨m, hm⟩ := reach_least_exists g vdom k
    have hmk : m ≤ k := hm.2 (reach_refl g vdom k)
    have hnm : ¬ m < k := by
      intro hlt
      have : vis k = true := (hA k).mpr ⟨hkp, m, hm, hlt⟩
      rw [hvk] at this
      exact Bool.false_ne_true this
    have : m = k := by omega
    rw [this] at hm
    exact hm
  have hunvis : ∀ y, Reach g vdom k y → vis y = false := by
    intro y hy
    cases hv : vis y
    · rfl
    · exfalso
      obtain ⟨hyp, r, hl, hr⟩ := (hA y).mp hv
      have hset : {z | Reach g vdom y z} = {z | Reach g vdom k z} :=
        reach_set_eq g vdom hw (reach_rev g vdom hw hy)
      rw [hset] at hl
      have : r = k := hl.unique hkl
      omega
  have hts := traversal_spec g (fun v => (vdom v == vdom k) && !vis v) hw k hkp
  have hVmem : ∀ x, x ∈ V ↔ Reach g vdom k x := by
    intro x
    rw [hV, hts.1 x]
    constructor
    · intro hx
      induction hx with
      | refl => exact reach_refl g vdom k
      | @tail b c hab hbc ih =>
        obtain ⟨hmem, hp⟩ := hbc
        obtain ⟨hd, _⟩ : (vdom c == vdom k) = true ∧ (!vis c) = true := by
          simpa using hp
        have hdb : vdom c = vdom k := eq_of_beq hd
        have hpb : g.Present b := reach_present_of_present g vdom hkp ih
        have hpc : g.Present c :=
          ⟨(hw b hpb.1 hpb.2 c hmem).1, (hw b hpb.1 hpb.2 c hmem).2.1⟩
        refine ih.tail ⟨hpb, hpc, hmem, ?_⟩
        rw [hdb, ← reach_dom g vdom ih]
    · intro hx
      induction hx with
      | refl => exact Relation.ReflTransGen.refl
      | @tail b c hab hbc ih =>
        have hreachc : Reach g vdom k c := hab.tail hbc
        obtain ⟨_, hpc, hmem, _⟩ := hbc
        refine ih.tail ⟨hmem, ?_⟩
        show (vdom c == vdom k && !vis c) = true
        have h1 : (vdom c == vdom k) = true :=
          natBeq_of_eq (reach_dom g vdom hreachc).symm
        have h2 : vis c = false := hunvis c hreachc
        rw [h1, h2]
        rfl
  refine ⟨hVmem, ?_, ?_, ?_⟩
  · intro w
    rw [hvis' w]
    constructor
    · intro hv
      by_cases hmem : w ∈ V
      · have hrw : Reach g vdom k w := (hVmem w).mp hmem
        have hset : {z | Reach g vdom w z} = {z | Reach g vdom k z} :=
          reach_set_eq g vdom hw (reach_rev g vdom hw hrw)
        refine ⟨reach_present_of_present g vdom hkp hrw, k, ?_, Nat.lt_succ_self k⟩
        rw [hset]
        exact hkl
      · rw [if_neg hmem] at hv
        obtain ⟨hp, r, hl, hr⟩ := (hA w).mp hv
        exact ⟨hp, r, hl, Nat.lt_succ_of_lt hr⟩
    · intro ⟨hp, r, hl, hr⟩
      rcases Nat.lt_succ_iff_lt_or_eq.mp hr with h' | h'
      · have hv : vis w = true := (hA w).mpr ⟨hp, r, hl, h'⟩
        by_cases hmem : w ∈ V
        · rw [if_pos hmem]
        · rw [if_neg hmem]; exact hv
      · subst h'
        have hrw : Reach g vdom w r := hl.1
        have hmem : w ∈ V := (hVmem w).mpr (reach_rev g vdom hw hrw)
        rw [if_pos hmem]
  · intro w hv
    rw [hvc' w]
    rw [hvis' w] at hv
    by_cases hmem : w ∈ V
    · rw [if_pos hmem]
      have hrw : Reach g vdom k w := (hVmem w).mp hmem
      have hset : {z | Reach g vdom w z} = {z | Reach g vdom k z} :=
        reach_set_eq g vdom hw (reach_rev g vdom hw hrw)
      rw [hset, hC k hvk]
      exact hkl
    · rw [if_neg hmem] at hv ⊢
      exact hB w hv
  · intro w hv
    rw [hvc' w]
    rw [hvis' w] at hv
    by_cases hmem : w ∈ V
    · rw [if_pos hmem] at hv
      exact absurd hv (by simp)
    · rw [if_neg hmem] at hv ⊢
      exact hC w hv

theorem scaninv_final (g : Graph) (vdom : Nat → Nat) (vc : Nat → Nat) (vis : Nat → Bool)
    (hinv : ScanInv g vdom g.span vc vis) : Splits g vdom vc := by
  obtain ⟨hA, hB, hC⟩ := hinv
  constructor
  · intro u hu
    obtain ⟨m, hm⟩ := reach_least_exists g vdom u
    have hmp : g.Present m := reach_present_of_present g vdom hu hm.1
    have hv : vis u = true := (hA u).mpr ⟨hu, m, hm, hmp.1⟩
    exact hB u hv
  · intro u hu
    cases hv : vis u
    · exact hC u hv
    · exfalso
      exact hu ((hA u).mp hv).1

/-! ## DFS splitter (`splitDisconnectedCommunitiesDfsOmpW`)

Single-worker schedule: `t = 0`, `T = 1`, so the scan covers `u = 0 .. S-1`
in order and `belongsOmp` owns every community. -/

/-- Modelled from the spec: deterministic worker-ownership of communities,
community id modulo worker count. -/
def belongsOmp (d t T : Nat) : Bool := d % T == t

/-- Body of the DFS scan (lines 80-88) for one vertex `u`, one worker. -/
def dfsStep (g : Graph) (vdom : Nat → Nat) (s : (Nat → Nat) × (Nat → Bool)) (u : Nat) :
    (Nat → Nat) × (Nat → Bool) :=
  if g.hasVertex u = false then s
  else if belongsOmp (vdom u) 0 1 = false ∨ s.2 u = true then s
  else
    (fun w => if w ∈ traversal g (fun v => (vdom v == vdom u) && !s.2 v) u
        then s.1 u else s.1 w,
     fun w => if w ∈ traversal g (fun v => (vdom v == vdom u) && !s.2 v) u
        then true else s.2 w)

/-- The initialization pass (lines 70-74) followed by the scan of ids below `k`. -/
def dfsScan (g : Graph) (vdom : Nat → Nat) (k : Nat) : (Nat → Nat) × (Nat → Bool) :=
  (List.range k).foldl (dfsStep g vdom) (fun u => u, fun _ => false)

/-- `splitDisconnectedCommunitiesDfsOmpW` (lines 66-90): the output labelling. -/
def splitDisconnectedCommunitiesDfsOmpW (g : Graph) (vdom : Nat → Nat) : Nat → Nat :=
  (dfsScan g vdom g.span).1

theorem belongsOmp_single (d : Nat) : belongsOmp d 0 1 = true := by
  unfold belongsOmp
  rw [Nat.mod_one]
  rfl

theorem dfsScan_succ (g : Graph) (vdom : Nat → Nat) (k : Nat) :
    dfsScan g vdom (k + 1) = dfsStep g vdom (dfsScan g vdom k) k := by
  unfold dfsScan
  rw [List.range_succ, List.foldl_append]
  rfl

theorem dfsStep_absent (g : Graph) (vdom : Nat → Nat) (s : (Nat → Nat) × (Nat → Bool))
    (u : Nat) (h : g.hasVertex u = false) : dfsStep g vdom s u = s := by
  unfold dfsStep
  rw [if_pos h]

theorem dfsStep_visited (g : Graph) (vdom : Nat → Nat) (s : (Nat → Nat) × (Nat → Bool))
    (u : Nat) (hv : g.hasVertex u = true) (hvis : s.2 u = true) : dfsStep g vdom s u = s := by
  unfold dfsStep
  rw [if_neg (by simp [hv]), if_pos (Or.inr hvis)]

theorem dfsStep_go (g : Graph) (vdom : Nat → Nat) (s : (Nat → Nat) × (Nat → Bool))
    (u : Nat) (hv : g.hasVertex u = true) (hvis : s.2 u = false) :
    dfsStep g vdom s u =
      (fun w => if w ∈ traversal g (fun v => (vdom v == vdom u) && !s.2 v) u
          then s.1 u else s.1 w,
       fun w => if w ∈ traversal g (fun v => (vdom v == vdom u) && !s.2 v) u
          then true else s.2 w) := by
  unfold dfsStep
  rw [if_neg (by simp [hv]), if_neg ?_]
  intro h
  rcases h with h | h
  · rw [belongsOmp_single (vdom u)] at h
    exact Bool.true_eq_false ▸ (by simp at h)
  · rw [hvis] at h
    exact Bool.false_ne_true h

theorem dfsScan_inv (g : Graph) (vdom : Nat → Nat) (hw : g.Wf) :
    ∀ k, k ≤ g.span →
      ScanInv g vdom k (dfsScan g vdom k).1 (dfsScan g vdom k).2 := by
  intro k
  induction k with
  | zero =>
    intro _
    exact scaninv_zero g vdom
  | succ k ih =>
    intro hk
    have hinv := ih (Nat.le_of_succ_le hk)
    rw [dfsScan_succ]
    by_cases hv : g.hasVertex k = false
    · rw [dfsStep_absent g vdom _ k hv]
      exact scaninv_skip_absent g vdom k _ _ hv hinv
    · have hv' : g.hasVertex k = true := by
        cases h : g.hasVertex k
        · exact absurd h hv
        · rfl
      by_cases hvis : (dfsScan g vdom k).2 k = true
      · rw [dfsStep_visited g vdom _ k hv' hvis]
        exact scaninv_skip_visited g vdom hw k _ _ hvis hinv
      · have hvis' : (dfsScan g vdom k).2 k = false := by
          cases h : (dfsScan g vdom k).2 k
          · rfl
          · exact absurd h hvis
        rw [dfsStep_go g vdom _ k hv' hvis']
        have hkp : g.Present k := ⟨hk, hv'⟩
        have hvck : (dfsScan g vdom k).1 k = k := hinv.2.2 k hvis'
        have := (scaninv_process g vdom hw k (dfsScan g vdom k).1 (dfsScan g vdom k).2
          hkp hvis' hinv
          (traversal g (fun v => (vdom v == vdom k) && !(dfsScan g vdom k).2 v) k) rfl
          (fun w => if w ∈ traversal g (fun v => (vdom v == vdom k) &&
              !(dfsScan g vdom k).2 v) k then (dfsScan g vdom k).1 k
            else (dfsScan g vdom k).1 w)
          (fun w => if w ∈ traversal g (fun v => (vdom v == vdom k) &&
              !(dfsScan g vdom k).2 v) k then true
            else (dfsScan g vdom k).2 w)
          (fun w => rfl) (fun w => rfl)).2
        exact this

/-- Main theorem for the DFS splitter. -/
theorem dfs_splits (g : Graph) (vdom : Nat → Nat) (hw : g.Wf) :
    Splits g vdom (splitDisconnectedCommunitiesDfsOmpW g vdom) :=
  scaninv_final g vdom _ _ (dfsScan_inv g vdom hw g.span (Nat.le_refl g.span))

/-- Ids that are not present are never relabelled by any DFS scan step. -/
theorem dfsScan_absent (g : Graph) (vdom : Nat → Nat) (hw : g.Wf) (u : Nat)
    (hu : ¬ g.Present u) : ∀ k, k ≤ g.span → (dfsScan g vdom k).1 u = u := by
  intro k hk
  have hinv := dfsScan_inv g vdom hw k hk
  cases hv : (dfsScan g vdom k).2 u
  · exact hinv.2.2 u hv
  · exact absurd ((hinv.1 u).mp hv).1 hu

/-! ## BFS splitter (`splitDisconnectedCommunitiesBfsOmpW`)

Single-worker schedule: `t = 0`, `T = 1`, so `ub = 0` and the scan covers
`u = 0 .. S-1` in one pass.  `acc` instruments the indices at which the
community busy-flag buffer `cbsy` is accessed (`cbsy[d]` with `d = vdom[u]`,
line 121), so that buffer-bounds claims can be stated. -/

structure BfsSt where
  vcom : Nat → Nat
  vis : Nat → Bool
  cbsy : Nat → Bool
  acc : List Nat

/-- The initialization pass (lines 107-112). -/
def bfsInit : BfsSt :=
  { vcom := fun u => u, vis := fun _ => false, cbsy := fun _ => false, acc := [] }

/-- The closure `fl` (lines 118-127) for one vertex `u`, one worker: claim the
community's busy flag, traverse, release the flag. -/
def bfsStep (g : Graph) (vdom : Nat → Nat) (s : BfsSt) (u : Nat) : BfsSt :=
  if g.hasVertex u = false ∨ s.vis u = true then s
  else if s.cbsy (vdom u) = true then { s with acc := s.acc ++ [vdom u] }
  else
    { vcom := fun w => if w ∈ traversal g (fun v => (vdom v == vdom u) && !s.vis v) u
        then s.vcom u else s.vcom w
      vis := fun w => if w ∈ traversal g (fun v => (vdom v == vdom u) && !s.vis v) u
        then true else s.vis w
      cbsy := Function.update (Function.update s.cbsy (vdom u) true) (vdom u) false
      acc := s.acc ++ [vdom u] }

/-- Scan of the ids below `k` (with `t = 0`, `T = 1` the two loops of lines
128-130 reduce to one ascending pass). -/
def bfsScan (g : Graph) (vdom : Nat → Nat) (k : Nat) : BfsSt :=
  (List.range k).foldl (bfsStep g vdom) bfsInit

/-- `splitDisconnectedCommunitiesBfsOmpW` (lines 103-132): the output labelling. -/
def splitDisconnectedCommunitiesBfsOmpW (g : Graph) (vdom : Nat → Nat) : Nat → Nat :=
  (bfsScan g vdom g.span).vcom

theorem bfsScan_succ (g : Graph) (vdom : Nat → Nat) (k : Nat) :
    bfsScan g vdom (k + 1) = bfsStep g vdom (bfsScan g vdom k) k := by
  unfold bfsScan
  rw [List.range_succ, List.foldl_append]
  rfl

theorem bfsStep_skip (g : Graph) (vdom : Nat → Nat) (s : BfsSt) (u : Nat)
    (h : g.hasVertex u = false ∨ s.vis u = true) : bfsStep g vdom s u = s := by
  unfold bfsStep
  rw [if_pos h]

theorem bfsStep_go (g : Graph) (vdom : Nat → Nat) (s : BfsSt) (u : Nat)
    (hv : g.hasVertex u = true) (hvis : s.vis u = false) (hb : s.cbsy (vdom u) = false) :
    bfsStep g vdom s u =
      { vcom := fun w => if w ∈ traversal g (fun v => (vdom v == vdom u) && !s.vis v) u
          then s.vcom u else s.vcom w
        vis := fun w => if w ∈ traversal g (fun v => (vdom v == vdom u) && !s.vis v) u
          then true else s.vis w
        cbsy := Function.update (Function.update s.cbsy (vdom u) true) (vdom u) false
        acc := s.acc ++ [vdom u] } := by
  unfold bfsStep
  rw [if_neg ?_, if_neg (by rw [hb]; exact Bool.false_ne_true)]
  intro h
  rcases h with h | h
  · rw [hv] at h; exact Bool.true_eq_false ▸ (by simp at h)
  · rw [hvis] at h; exact Bool.false_ne_true h

/-- Invariant of the BFS scan: the scan invariant holds and the busy flags are
all released at scan-step boundaries. -/
def BfsInv (g : Graph) (vdom : Nat → Nat) (k : Nat) (s : BfsSt) : Prop :=
  ScanInv g vdom k s.vcom s.vis ∧ ∀ w, s.cbsy w = false

theorem bfsScan_inv (g : Graph) (vdom : Nat → Nat) (hw : g.Wf) :
    ∀ k, k ≤ g.span → BfsInv g vdom k (bfsScan g vdom k) := by
  intro k
  induction k with
  | zero =>
    intro _
    exact ⟨scaninv_zero g vdom, fun _ => rfl⟩
  | succ k ih =>
    intro hk
    obtain ⟨hinv, hcb⟩ := ih (Nat.le_of_succ_le hk)
    rw [bfsScan_succ]
    by_cases hv : g.hasVertex k = false
    · rw [bfsStep_skip g vdom _ k (Or.inl hv)]
      exact ⟨scaninv_skip_absent g vdom k _ _ hv hinv, hcb⟩
    · have hv' : g.hasVertex k = true := by
        cases h : g.hasVertex k
        · exact absurd h hv
        · rfl
      by_cases hvis : (bfsScan g vdom k).vis k = true
      · rw [bfsStep_skip g vdom _ k (Or.inr hvis)]
        exact ⟨scaninv_skip_visited g vdom hw k _ _ hvis hinv, hcb⟩
      · have hvis' : (bfsScan g vdom k).vis k = false := by
          cases h : (bfsScan g vdom k).vis k
          · rfl
          · exact absurd h hvis
        rw [bfsStep_go g vdom _ k hv' hvis' (hcb (vdom k))]
        have hkp : g.Present k := ⟨hk, hv'⟩
        refine ⟨?_, ?_⟩
        · exact (scaninv_process g vdom hw k (bfsScan g vdom k).vcom (bfsScan g vdom k).vis
            hkp hvis' hinv
            (traversal g (fun v => (vdom v == vdom k) && !(bfsScan g vdom k).vis v) k) rfl
            (fun w => if w ∈ traversal g (fun v => (vdom v == vdom k) &&
                !(bfsScan g vdom k).vis v) k then (bfsScan g vdom k).vcom k
              else (bfsScan g vdom k).vcom w)
            (fun w => if w ∈ traversal g (fun v => (vdom v == vdom k) &&
                !(bfsScan g vdom k).vis v) k then true
              else (bfsScan g vdom k).vis w)
            (fun w => rfl) (fun w => rfl)).2
        · intro w
          by_cases hwd : w = vdom k
          · subst hwd
            simp only [Function.update_same]
          · simp only [Function.update_noteq hwd]
            exact hcb w

/-- Main theorem for the BFS splitter. -/
theorem bfs_splits (g : Graph) (vdom : Nat → Nat) (hw : g.Wf) :
    Splits g vdom (splitDisconnectedCommunitiesBfsOmpW g vdom) :=
  scaninv_final g vdom _ _ (bfsScan_inv g vdom hw g.span (Nat.le_refl g.span)).1

/-- Ids that are not present are never relabelled by any BFS scan step. -/
theorem bfsScan_absent (g : Graph) (vdom : Nat → Nat) (hw : g.Wf) (u : Nat)
    (hu : ¬ g.Present u) : ∀ k, k ≤ g.span → (bfsScan g vdom k).vcom u = u := by
  intro k hk
  have hinv := (bfsScan_inv g vdom hw k hk).1
  cases hv : (bfsScan g vdom k).vis u
  · exact hinv.2.2 u hv
  · exact absurd ((hinv.1 u).mp hv).1 hu

/-- Every access to the busy-flag buffer happens at the community id of a
present scanned vertex. -/
theorem bfsScan_acc (g : Graph) (vdom : Nat → Nat) :
    ∀ k, ∀ i ∈ (bfsScan g vdom k).acc,
      ∃ u, u < k ∧ g.hasVertex u = true ∧ i = vdom u := by
  intro k
  induction k with
  | zero =>
    intro i hi
    exact absurd hi (List.not_mem_nil i)
  | succ k ih =>
    intro i hi
    rw [bfsScan_succ] at hi
    have hgen : ∀ u', u' < k + 1 → g.hasVertex u' = true → i = vdom u' →
        ∃ u, u < k + 1 ∧ g.hasVertex u = true ∧ i = vdom u :=
      fun u' h1 h2 h3 => ⟨u', h1, h2, h3⟩
    by_cases hv : g.hasVertex k = false ∨ (bfsScan g vdom k).vis k = true
    · rw [bfsStep_skip g vdom _ k hv] at hi
      obtain ⟨u, h1, h2, h3⟩ := ih i hi
      exact ⟨u, Nat.lt_succ_of_lt h1, h2, h3⟩
    · have hv' : g.hasVertex k = true := by
        cases h : g.hasVertex k
        · exact absurd (Or.inl h) hv
        · rfl
      have hvis' : (bfsScan g vdom k).vis k = false := by
        cases h : (bfsScan g vdom k).vis k
        · rfl
        · exact absurd (Or.inr h) hv
      have hacc : (bfsStep g vdom (bfsScan g vdom k) k).acc =
          (bfsScan g vdom k).acc ++ [vdom k] := by
        by_cases hb : (bfsScan g vdom k).cbsy (vdom k) = true
        · unfold bfsStep
          rw [if_neg hv, if_pos hb]
        · have hb' : (bfsScan g vdom k).cbsy (vdom k) = false := by
            cases h : (bfsScan g vdom k).cbsy (vdom k)
            · rfl
            · exact absurd h hb
          rw [bfsStep_go g vdom _ k hv' hvis' hb']
      rw [hacc] at hi
      rcases List.mem_append.mp hi with hi' | hi'
      · obtain ⟨u, h1, h2, h3⟩ := ih i hi'
        exact ⟨u, Nat.lt_succ_of_lt h1, h2, h3⟩
      · exact ⟨k, Nat.lt_succ_self k, hv', List.mem_singleton.mp hi'⟩

/-! ## Restriction of a graph to its present vertices -/

/-- The same graph with the absent ids' slots emptied of edges: present
vertices keep exactly their present neighbours. -/
def Graph.restrict (g : Graph) : Graph :=
  { span := g.span
    hasVertex := g.hasVertex
    nbrs := fun u => if g.hasVertex u = true
      then (g.nbrs u).filter (fun v => g.hasVertex v) else [] }

theorem restrict_present (g : Graph) (u : Nat) : g.restrict.Present u ↔ g.Present u :=
  Iff.rfl

theorem restrict_wf (g : Graph) (hw : g.Wf) : g.restrict.Wf := by
  intro u hu hv v hvm
  have hu0 : u < g.span := hu
  have hv0 : g.hasVertex u = true := hv
  have hvm0 : v ∈ (if g.hasVertex u = true
      then (g.nbrs u).filter (fun v => g.hasVertex v) else []) := hvm
  rw [if_pos hv0] at hvm0
  obtain ⟨hvg, hvp⟩ := List.mem_filter.mp hvm0
  have h := hw u hu0 hv0 v hvg
  refine ⟨h.1, h.2.1, ?_⟩
  show u ∈ (if g.hasVertex v = true then (g.nbrs v).filter (fun z => g.hasVertex z) else [])
  rw [if_pos h.2.1]
  exact List.mem_filter.mpr ⟨h.2.2, hv0⟩

theorem restrict_estep (g : Graph) (vdom : Nat → Nat) (a b : Nat) :
    Estep g.restrict vdom a b ↔ Estep g vdom a b := by
  constructor
  · intro ⟨ha, hb, hm, hd⟩
    refine ⟨ha, hb, ?_, hd⟩
    have ha2 : g.hasVertex a = true := ha.2
    have hm' : b ∈ (if g.hasVertex a = true
        then (g.nbrs a).filter (fun v => g.hasVertex v) else []) := hm
    rw [if_pos ha2] at hm'
    exact (List.mem_filter.mp hm').1
  · intro ⟨ha, hb, hm, hd⟩
    refine ⟨ha, hb, ?_, hd⟩
    have ha2 : g.hasVertex a = true := ha.2
    have hb2 : g.hasVertex b = true := hb.2
    show b ∈ (if g.hasVertex a = true then (g.nbrs a).filter (fun v => g.hasVertex v) else [])
    rw [if_pos ha2]
    exact List.mem_filter.mpr ⟨hm, hb2⟩

theorem restrict_reach (g : Graph) (vdom : Nat → Nat) (u v : Nat) :
    Reach g.restrict vdom u v ↔ Reach g vdom u v :=
  ⟨fun h => Relation.ReflTransGen.mono (fun a b hab => (restrict_estep g vdom a b).mp hab) h,
   fun h => Relation.ReflTransGen.mono (fun a b hab => (restrict_estep g vdom a b).mpr hab) h⟩

theorem restrict_splits (g : Graph) (vdom : Nat → Nat) {f : Nat → Nat}
    (h : Splits g.restrict vdom f) : Splits g vdom f := by
  constructor
  · intro u hu
    have h1 := h.1 u ((restrict_present g u).mpr hu)
    have hset : {z | Reach g.restrict vdom u z} = {z | Reach g vdom u z} :=
      Set.ext fun z => restrict_reach g vdom u z
    rw [hset] at h1
    exact h1
  · intro u hu
    exact h.2 u fun hp => hu ((restrict_present g u).mp hp)

/-! ## Sized embedding of the label-propagation splitter (for buffer-size claims)

The same code, with `vcom` and `vdom` as finite vectors (`List Nat`) and every
element access bounds-checked: an access past a buffer's end yields `none`.
`PRUNE = false` (the default instantiation), so `vaff` is never touched.
The source performs no size validation of its own, so the only possible
failure is an out-of-range access actually executed. -/

def getL (l : List Nat) (i : Nat) : Option Nat := l.get? i

def setL (l : List Nat) (i x : Nat) : Option (List Nat) :=
  if i < l.length then some (l.set i x) else none

/-- The initialization pass (lines 28-32) on a sized buffer. -/
def sInitL (S : Nat) (vcomL : List Nat) : Option (List Nat) :=
  (List.range S).foldlM (fun l u => setL l u u) vcomL

/-- Neighbour fold of lines 43-45 on sized buffers. -/
def sMinL (vdomL : List Nat) (d : Nat) (vcomL : List Nat) (nb : List Nat) (c : Nat) :
    Option Nat :=
  nb.foldlM (fun c v => do
    let dv ← getL vdomL v
    if dv = d then do
      let cv ← getL vcomL v
      pure (min c cv)
    else pure c) c

/-- Round body of lines 37-53 on sized buffers. -/
def sStepL (g : Graph) (vdomL : List Nat) (st : List Nat × Nat) (u : Nat) :
    Option (List Nat × Nat) :=
  if g.hasVertex u = false then pure st
  else do
    let d ← getL vdomL u
    let c0 ← getL st.1 u
    let c ← sMinL vdomL d st.1 (g.nbrs u) c0
    if c = c0 then pure st
    else do
      let l ← setL st.1 u c
      pure (l, st.2 + 1)

def sRoundL (g : Graph) (vdomL : List Nat) (l : List Nat) : Option (List Nat × Nat) :=
  (List.range g.span).foldlM (sStepL g vdomL) (l, 0)

def sLoopL (g : Graph) (vdomL : List Nat) : Nat → List Nat → Option (List Nat)
  | 0, _ => none
  | n + 1, l => do
    let r ← sRoundL g vdomL l
    if r.2 = 0 then pure r.1 else sLoopL g vdomL n r.1

/-- The sized splitter: initialization pass then the round loop (`fuel` bounds
the number of rounds; the loop of the source runs until a zero-change round). -/
def sSplitLpaL (fuel : Nat) (g : Graph) (vdomL vcomL : List Nat) : Option (List Nat) := do
  let l ← sInitL g.span vcomL
  sLoopL g vdomL fuel l

/-! ## Concrete graphs -/

/-- The spec's scenario: vertices 0-5, edges 0-1, 1-2, 3-4, vertex 5 isolated. -/
def gEx : Graph :=
  { span := 6
    hasVertex := fun u => u < 6
    nbrs := fun u =>
      match u with
      | 0 => [1]
      | 1 => [0, 2]
      | 2 => [1]
      | 3 => [4]
      | 4 => [3]
      | _ => [] }

def vdomEx : Nat → Nat := fun u =>
  match u with
  | 0 => 0
  | 1 => 0
  | 2 => 0
  | 3 => 1
  | 4 => 1
  | _ => 0

/-- Span 2, only vertex 0 present, no edges: entry 1 of `vdom` is never read. -/
def gTwo : Graph :=
  { span := 2, hasVertex := fun u => u == 0, nbrs := fun _ => [] }

/-- One isolated present vertex. -/
def gOne : Graph :=
  { span := 1, hasVertex := fun _ => true, nbrs := fun _ => [] }

/-- Community ids out of range: the only vertex claims community 5. -/
def vdomBig : Nat → Nat := fun _ => 5

/-! ## Claims

The well-formedness hypothesis `g.Wf` (adjacency symmetric, only among
present in-span vertices) states what the surrounding framework's undirected
graphs always provide and what the spec's notion of vertices "reachable from
one another" presupposes; the splitters rely on it since they never re-check
presence of enumerated neighbours. -/

/-- C1: for each of the three splitters, at completion, present vertices `u`,
`v` of one community share a label iff they are joined by a path lying
entirely inside that community. -/
theorem claim1_refinement_invariant :
    ∀ (prune : Bool) (g : Graph) (vdom : Nat → Nat), g.Wf →
      ∀ u v, g.Present u → g.Present v → vdom u = vdom v →
        ((splitDisconnectedCommunitiesLpaOmpW prune g vdom u =
            splitDisconnectedCommunitiesLpaOmpW prune g vdom v ↔ Reach g vdom u v) ∧
         (splitDisconnectedCommunitiesDfsOmpW g vdom u =
            splitDisconnectedCommunitiesDfsOmpW g vdom v ↔ Reach g vdom u v) ∧
         (splitDisconnectedCommunitiesBfsOmpW g vdom u =
            splitDisconnectedCommunitiesBfsOmpW g vdom v ↔ Reach g vdom u v)) := by
  intro prune g vdom hw u v hu hv _
  exact ⟨splits_class_iff g vdom hw (lpa_splits prune g vdom hw) hu hv,
         splits_class_iff g vdom hw (dfs_splits g vdom hw) hu hv,
         splits_class_iff g vdom hw (bfs_splits g vdom hw) hu hv⟩

theorem claim1_witness :
    gEx.Wf ∧ gEx.Present 0 ∧ gEx.Present 2 ∧ vdomEx 0 = vdomEx 2 ∧
      ((splitDisconnectedCommunitiesLpaOmpW false gEx vdomEx 0 =
          splitDisconnectedCommunitiesLpaOmpW false gEx vdomEx 2 ↔ Reach gEx vdomEx 0 2) ∧
       (splitDisconnectedCommunitiesDfsOmpW gEx vdomEx 0 =
          splitDisconnectedCommunitiesDfsOmpW gEx vdomEx 2 ↔ Reach gEx vdomEx 0 2) ∧
       (splitDisconnectedCommunitiesBfsOmpW gEx vdomEx 0 =
          splitDisconnectedCommunitiesBfsOmpW gEx vdomEx 2 ↔ Reach gEx vdomEx 0 2)) :=
  ⟨by decide, by decide, by decide, rfl,
   claim1_refinement_invariant false gEx vdomEx (by decide) 0 2 (by decide) (by decide) rfl⟩

/-- C2: the three splitters induce the same partition of present vertices into
equivalence classes (here they even agree on the representative labels). -/
theorem claim2_cross_strategy :
    ∀ (prune : Bool) (g : Graph) (vdom : Nat → Nat), g.Wf →
      ∀ u v, g.Present u → g.Present v →
        ((splitDisconnectedCommunitiesLpaOmpW prune g vdom u =
            splitDisconnectedCommunitiesLpaOmpW prune g vdom v ↔
          splitDisconnectedCommunitiesDfsOmpW g vdom u =
            splitDisconnectedCommunitiesDfsOmpW g vdom v) ∧
         (splitDisconnectedCommunitiesDfsOmpW g vdom u =
            splitDisconnectedCommunitiesDfsOmpW g vdom v ↔
          splitDisconnectedCommunitiesBfsOmpW g vdom u =
            splitDisconnectedCommunitiesBfsOmpW g vdom v)) := by
  intro prune g vdom hw u v hu hv
  have h1 := splits_class_iff g vdom hw (lpa_splits prune g vdom hw) hu hv
  have h2 := splits_class_iff g vdom hw (dfs_splits g vdom hw) hu hv
  have h3 := splits_class_iff g vdom hw (bfs_splits g vdom hw) hu hv
  exact ⟨h1.trans h2.symm, h2.trans h3.symm⟩

theorem claim2_witness :
    gEx.Wf ∧ gEx.Present 1 ∧ gEx.Present 4 ∧
      ((splitDisconnectedCommunitiesLpaOmpW false gEx vdomEx 1 =
          splitDisconnectedCommunitiesLpaOmpW false gEx vdomEx 4 ↔
        splitDisconnectedCommunitiesDfsOmpW gEx vdomEx 1 =
          splitDisconnectedCommunitiesDfsOmpW gEx vdomEx 4) ∧
       (splitDisconnectedCommunitiesDfsOmpW gEx vdomEx 1 =
          splitDisconnectedCommunitiesDfsOmpW gEx vdomEx 4 ↔
        splitDisconnectedCommunitiesBfsOmpW gEx vdomEx 1 =
          splitDisconnectedCommunitiesBfsOmpW gEx vdomEx 4)) :=
  ⟨by decide, by decide, by decide,
   claim2_cross_strategy false gEx vdomEx (by decide) 1 4 (by decide) (by decide)⟩

/-- C3: running any splitter again, with its own output supplied as the
community assignment, reproduces the output unchanged. -/
theorem claim3_idempotence :
    ∀ (prune : Bool) (g : Graph) (vdom : Nat → Nat), g.Wf → ∀ u,
      splitDisconnectedCommunitiesLpaOmpW prune g
          (splitDisconnectedCommunitiesLpaOmpW prune g vdom) u =
        splitDisconnectedCommunitiesLpaOmpW prune g vdom u ∧
      splitDisconnectedCommunitiesDfsOmpW g
          (splitDisconnectedCommunitiesDfsOmpW g vdom) u =
        splitDisconnectedCommunitiesDfsOmpW g vdom u ∧
      splitDisconnectedCommunitiesBfsOmpW g
          (splitDisconnectedCommunitiesBfsOmpW g vdom) u =
        splitDisconnectedCommunitiesBfsOmpW g vdom u := by
  intro prune g vdom hw u
  refine ⟨?_, ?_, ?_⟩
  · have h1 := lpa_splits prune g vdom hw
    exact splits_unique g _ (lpa_splits prune g _ hw) (splits_self g vdom hw h1) u
  · have h1 := dfs_splits g vdom hw
    exact splits_unique g _ (dfs_splits g _ hw) (splits_self g vdom hw h1) u
  · have h1 := bfs_splits g vdom hw
    exact splits_unique g _ (bfs_splits g _ hw) (splits_self g vdom hw h1) u

theorem claim3_witness :
    gEx.Wf ∧
      (splitDisconnectedCommunitiesLpaOmpW false gEx
          (splitDisconnectedCommunitiesLpaOmpW false gEx vdomEx) 3 =
        splitDisconnectedCommunitiesLpaOmpW false gEx vdomEx 3 ∧
       splitDisconnectedCommunitiesDfsOmpW gEx
          (splitDisconnectedCommunitiesDfsOmpW gEx vdomEx) 3 =
        splitDisconnectedCommunitiesDfsOmpW gEx vdomEx 3 ∧
       splitDisconnectedCommunitiesBfsOmpW gEx
          (splitDisconnectedCommunitiesBfsOmpW gEx vdomEx) 3 =
        splitDisconnectedCommunitiesBfsOmpW gEx vdomEx 3) :=
  ⟨by decide, claim3_idempotence false gEx vdomEx (by decide) 3⟩

/-- C4: the label-propagation splitter labels every present vertex with the
smallest id among the vertices reachable inside its community. -/
theorem claim4_minimal_representative :
    ∀ (prune : Bool) (g : Graph) (vdom : Nat → Nat), g.Wf → ∀ u, g.Present u →
      IsLeast {z | Reach g vdom u z}
        (splitDisconnectedCommunitiesLpaOmpW prune g vdom u) := by
  intro prune g vdom hw u hu
  exact (lpa_splits prune g vdom hw).1 u hu

theorem claim4_witness :
    gEx.Wf ∧ gEx.Present 2 ∧
      IsLeast {z | Reach gEx vdomEx 2 z}
        (splitDisconnectedCommunitiesLpaOmpW false gEx vdomEx 2) :=
  ⟨by decide, by decide, claim4_minimal_representative false gEx vdomEx (by decide) 2 (by decide)⟩

/-- C5: after the initialization pass, a round never increases any label
(a change is a strict decrease), so labels are non-increasing across the
whole run. -/
theorem claim5_monotonic_decrease :
    ∀ (prune : Bool) (g : Graph) (vdom : Nat → Nat) (s : LpaSt) (u : Nat),
      (lpaRound prune g vdom s).1.vcom u ≤ s.vcom u ∧
      ((lpaRound prune g vdom s).1.vcom u ≠ s.vcom u →
        (lpaRound prune g vdom s).1.vcom u < s.vcom u) ∧
      ∀ n m, n ≤ m → (lpaIter prune g vdom m).vcom u ≤ (lpaIter prune g vdom n).vcom u := by
  intro prune g vdom s u
  have h := (lpaRound_spec prune g vdom s).2.1 u
  exact ⟨h, fun hne => Nat.lt_of_le_of_ne h hne, lpaIter_vcom_mono prune g vdom u⟩

theorem claim5_witness :
    (0 : Nat) ≤ 1 ∧
      (lpaIter false gEx vdomEx 1).vcom 2 ≤ (lpaIter false gEx vdomEx 0).vcom 2 :=
  ⟨by decide, (claim5_monotonic_decrease false gEx vdomEx lpaInit 2).2.2 0 1 (by decide)⟩

/-- C6: the round loop terminates for every input: some number of rounds
leads to a state whose next round makes zero changes, the loop's result is
that state, and the splitter's output is its label buffer. -/
theorem claim6_termination :
    ∀ (prune : Bool) (g : Graph) (vdom : Nat → Nat),
      ∃ n, (lpaRound prune g vdom (lpaIterFrom prune g vdom lpaInit n)).2 = 0 ∧
        lpaLoop prune g vdom lpaInit = lpaIterFrom prune g vdom lpaInit n ∧
        splitDisconnectedCommunitiesLpaOmpW prune g vdom =
          (lpaIterFrom prune g vdom lpaInit n).vcom := by
  intro prune g vdom
  obtain ⟨n, h1, h2⟩ := lpaLoop_reaches_fix prune g vdom lpaInit
  exact ⟨n, h1, h2, congrArg LpaSt.vcom h2⟩

/-- C7 counterexample: with span 2, vertex 1 absent, and `vdom = [0]` of size
1 < span, the sized label-propagation splitter does not fail at all: no size
validation exists, the unneeded entry is simply never read, and the call
completes with output. -/
theorem claim7_counterexample :
    ([0] : List Nat).length < gTwo.span ∧ sSplitLpaL 4 gTwo [0] [9, 9] ≠ none := by
  decide

/-- C7 (amended): the splitters perform no size validation; an undersized
buffer is only noticed if an out-of-range index is actually accessed, and a
call whose accessed indices are all in range completes and produces output —
here with the undersized `vdom = [0]` the result is `[0, 1]`. -/
theorem claim7_no_size_validation :
    ([0] : List Nat).length < gTwo.span ∧ sSplitLpaL 4 gTwo [0] [9, 9] = some [0, 1] := by
  decide

/-- C8 counterexample: vertex 0 is present, flagged, has no neighbours (so no
neighbour's change could re-mark it), is rescanned in the round, yet its
affected flag is still set afterwards: the rescan left the label unchanged
and line 46 skips the clear at line 51. -/
theorem claim8_counterexample :
    gOne.Present 0 ∧ lpaInit.vaff 0 = true ∧ gOne.nbrs 0 = [] ∧
      (lpaRound true gOne (fun _ => 0) lpaInit).1.vaff 0 = true := by
  decide

/-- C8 (amended): in the pruned splitter, a rescan of a flagged vertex clears
`vaff[u]` only when it changes the label; a rescan that leaves the label
unchanged leaves the flag set. -/
theorem claim8_clear_only_on_change :
    ∀ (g : Graph) (vdom : Nat → Nat) (st : LpaSt × Nat) (u : Nat),
      g.hasVertex u = true → st.1.vaff u = true → u ∉ g.nbrs u →
      (lpaStep true g vdom st u).1.vaff u =
        (if lpaMin g vdom st.1.vcom u = st.1.vcom u then true else false) := by
  intro g vdom st u hv ha hloop
  have hp : ¬ ((true : Bool) = true ∧ st.1.vaff u = false) := by
    intro ⟨_, hfa⟩
    rw [ha] at hfa
    exact Bool.true_eq_false ▸ (by simp at hfa)
  by_cases hc : lpaMin g vdom st.1.vcom u = st.1.vcom u
  · rw [lpaStep_nochange true g vdom st u hv hp hc, if_pos hc]
    exact ha
  · rw [lpaStep_change true g vdom st u hv hp hc, if_neg hc]
    show (if (true : Bool) = true then
        fun w => if w ∈ g.nbrs u ∧ vdom w = vdom u then true
          else Function.update st.1.vaff u false w
      else st.1.vaff) u = false
    rw [if_pos rfl, if_neg (fun hm => hloop hm.1), Function.update_same]

theorem claim8_witness :
    gEx.hasVertex 1 = true ∧ lpaInit.vaff 1 = true ∧ 1 ∉ gEx.nbrs 1 ∧
      (lpaStep true gEx vdomEx (lpaInit, 0) 1).1.vaff 1 =
        (if lpaMin gEx vdomEx lpaInit.vcom 1 = lpaInit.vcom 1 then true else false) :=
  ⟨by decide, rfl, by decide,
   claim8_clear_only_on_change gEx vdomEx (lpaInit, 0) 1 (by decide) rfl (by decide)⟩

/-- C9 counterexample: a well-formed graph with one present vertex of span 1
whose community id is 5 makes the BFS splitter access the busy-flag buffer at
index 5 ≥ span, out of bounds for a buffer sized exactly span. -/
theorem claim9_counterexample :
    gOne.Wf ∧ 5 ∈ (bfsScan gOne vdomBig gOne.span).acc ∧ ¬ (5 < gOne.span) := by
  decide

/-- C9 (amended): every busy-flag access of the BFS splitter is at the
community id of a present scanned vertex, so under the additional
precondition that present vertices' community ids are below the span all
the accesses are within a span-sized buffer's bounds. -/
theorem claim9_busy_access_bounded :
    ∀ (g : Graph) (vdom : Nat → Nat),
      (∀ u, u < g.span → g.hasVertex u = true → vdom u < g.span) →
      ∀ i ∈ (bfsScan g vdom g.span).acc, i < g.span := by
  intro g vdom hdom i hi
  obtain ⟨u, hu, hv, he⟩ := bfsScan_acc g vdom g.span i hi
  rw [he]
  exact hdom u hu hv

theorem claim9_witness :
    (∀ u, u < gEx.span → gEx.hasVertex u = true → vdomEx u < gEx.span) ∧
      ∀ i ∈ (bfsScan gEx vdomEx gEx.span).acc, i < gEx.span :=
  ⟨by decide, claim9_busy_access_bounded gEx vdomEx (by decide)⟩

/-- C10: ids in `[0, span)` that are absent keep their initialization value
`vcom[u] = u` through every round and every scan step of all three splitters,
and the classes among present vertices agree with those computed on the graph
restricted to its present vertices. -/
theorem claim10_absent_frame :
    ∀ (prune : Bool) (g : Graph) (vdom : Nat → Nat), g.Wf →
      (∀ u, u < g.span → g.hasVertex u = false →
        ((∀ n, (lpaIter prune g vdom n).vcom u = u) ∧
         splitDisconnectedCommunitiesLpaOmpW prune g vdom u = u ∧
         (∀ k, k ≤ g.span → (dfsScan g vdom k).1 u = u) ∧
         (∀ k, k ≤ g.span → (bfsScan g vdom k).vcom u = u))) ∧
      (∀ u v, g.Present u → g.Present v →
        ((splitDisconnectedCommunitiesLpaOmpW prune g vdom u =
            splitDisconnectedCommunitiesLpaOmpW prune g vdom v ↔
          splitDisconnectedCommunitiesLpaOmpW prune g.restrict vdom u =
            splitDisconnectedCommunitiesLpaOmpW prune g.restrict vdom v) ∧
         (splitDisconnectedCommunitiesDfsOmpW g vdom u =
            splitDisconnectedCommunitiesDfsOmpW g vdom v ↔
          splitDisconnectedCommunitiesDfsOmpW g.restrict vdom u =
            splitDisconnectedCommunitiesDfsOmpW g.restrict vdom v) ∧
         (splitDisconnectedCommunitiesBfsOmpW g vdom u =
            splitDisconnectedCommunitiesBfsOmpW g vdom v ↔
          splitDisconnectedCommunitiesBfsOmpW g.restrict vdom u =
            splitDisconnectedCommunitiesBfsOmpW g.restrict vdom v))) := by
  intro prune g vdom hw
  have hw' : g.restrict.Wf := restrict_wf g hw
  constructor
  · intro u hu hv
    have hnp : ¬ g.Present u := fun hp => Bool.false_ne_true (hv ▸ hp.2)
    refine ⟨?_, ?_, ?_, ?_⟩
    · intro n
      have hinv : LpaReachInv g vdom (lpaIter prune g vdom n).vcom := by
        induction n with
        | zero =>
          intro w
          exact ⟨fun _ => ⟨reach_refl g vdom w, Nat.le_refl w⟩, fun _ => rfl⟩
        | succ n ih =>
          exact lpaRound_reachInv prune g vdom hw _ ih
      exact (hinv u).2 hnp
    · exact (lpa_splits prune g vdom hw).2 u hnp
    · exact dfsScan_absent g vdom hw u hnp
    · exact bfsScan_absent g vdom hw u hnp
  · intro u v hu hv
    have hu' : g.restrict.Present u := (restrict_present g u).mpr hu
    have hv' : g.restrict.Present v := (restrict_present g v).mpr hv
    have hre : Reach g.restrict vdom u v ↔ Reach g vdom u v := restrict_reach g vdom u v
    refine ⟨?_, ?_, ?_⟩
    · exact (splits_class_iff g vdom hw (lpa_splits prune g vdom hw) hu hv).trans
        ((hre.symm).trans
          (splits_class_iff g.restrict vdom hw' (lpa_splits prune g.restrict vdom hw') hu' hv').symm)
    · exact (splits_class_iff g vdom hw (dfs_splits g vdom hw) hu hv).trans
        ((hre.symm).trans
          (splits_class_iff g.restrict vdom hw' (dfs_splits g.restrict vdom hw') hu' hv').symm)
    · exact (splits_class_iff g vdom hw (bfs_splits g vdom hw) hu hv).trans
        ((hre.symm).trans
          (splits_class_iff g.restrict vdom hw' (bfs_splits g.restrict vdom hw') hu' hv').symm)

theorem claim10_witness :
    gTwo.Wf ∧ (1 : Nat) < gTwo.span ∧ gTwo.hasVertex 1 = false ∧
      (∀ n, (lpaIter false gTwo (fun _ => 0) n).vcom 1 = 1) ∧
      splitDisconnectedCommunitiesLpaOmpW false gTwo (fun _ => 0) 1 = 1 ∧
      (∀ k, k ≤ gTwo.span → (dfsScan gTwo (fun _ => 0) k).1 1 = 1) ∧
      (∀ k, k ≤ gTwo.span → (bfsScan gTwo (fun _ => 0) k).vcom 1 = 1) := by
  have h := (claim10_absent_frame false gTwo (fun _ => 0) (by decide)).1 1 (by decide) (by decide)
  exact ⟨by decide, by decide, by decide, h.1, h.2.1, h.2.2.1, h.2.2.2⟩
